import Mathlib

set_option maxRecDepth 8000

/-!
Shallow embedding of the idea-deployer repository (src/idea_gen.py and
src/iterate_project.py).  Pure functions are translated directly; the
filesystem is modelled as explicit state (association lists from path keys to
file contents), and the Python `json` module is modelled by a recursive
descent recogniser over the JSON grammar.  All definitions are executable.
-/

/-- The opening-brace character, written by code point. -/
def lbrace : Char := Char.ofNat 123

/-- The closing-brace character, written by code point. -/
def rbrace : Char := Char.ofNat 125

/-! ### String primitives

Structural re-implementations of the string operations the Python code
uses (`str.lower`, splitting, joining), so that every definition evaluates
by kernel reduction. -/

/-- Python `str.lower`, modelled on ASCII. -/
def strToLower (s : String) : String := String.mk (s.data.map Char.toLower)

/-- Split a character list at every occurrence of a separator character;
pieces may be empty, as in Python `str.split(sep)`. -/
def splitOnChar (sep : Char) : List Char → List (List Char)
  | [] => [[]]
  | c :: rest =>
    if c == sep then [] :: splitOnChar sep rest
    else
      match splitOnChar sep rest with
      | p :: ps => (c :: p) :: ps
      | [] => [[c]]

/-- Split a character list at every character satisfying a predicate;
pieces may be empty. -/
def splitPred (p : Char → Bool) : List Char → List (List Char)
  | [] => [[]]
  | c :: rest =>
    if p c then [] :: splitPred p rest
    else
      match splitPred p rest with
      | q :: qs => (c :: q) :: qs
      | [] => [[c]]

/-- Join strings with a separator (Python `sep.join(...)`). -/
def joinSep (sep : String) : List String → String
  | [] => ""
  | [x] => x
  | x :: y :: xs => x ++ sep ++ joinSep sep (y :: xs)

/-! ### Model of posix pure paths (Python `pathlib.PurePosixPath`)

`PurePosixPath(s).parts` (with the root excluded) splits on `/`, dropping
empty segments and single-dot segments; `name` is the final part; `suffix`
is the final dot-suffix of the name provided the last dot is neither the
first nor the last character of the name.  Constructing a `PurePosixPath`
from a Python `str` never fails, so the model is total. -/

/-- Segments of a posix path string, as in `PurePosixPath.parts` with the
root excluded: split on the separator, dropping empty and `.` segments. -/
def posixSegments (s : String) : List String :=
  ((splitOnChar '/' s.data).map List.asString).filter
    (fun seg => !(seg == "" || seg == "."))

/-- Model of `PurePosixPath.is_absolute`: the path begins with the separator. -/
def posixIsAbsolute (s : String) : Bool :=
  match s.data with
  | c :: _ => c == '/'
  | [] => false

/-- Model of `PurePosixPath.name`: the final segment, or `""` if there is none. -/
def posixName (s : String) : String := (posixSegments s).getLastD ""

/-- Index of the last occurrence of a character in a list, if any
(model of Python `str.rfind` restricted to single characters). -/
def lastIdxOf (c : Char) : List Char → Option Nat
  | [] => none
  | x :: xs =>
    match lastIdxOf c xs with
    | some i => some (i + 1)
    | none => if x == c then some 0 else none

/-- Model of `PurePosixPath.suffix`: `name[i:]` where `i` is the index of the
last dot of the name, provided `0 < i < len(name) - 1`; otherwise `""`. -/
def posixSuffix (s : String) : String :=
  let name := (posixName s).data
  match lastIdxOf '.' name with
  | some i => if 0 < i && i + 1 < name.length then (name.drop i).asString else ""
  | none => ""

/-- The set `ALLOWED_CODE_EXTENSIONS` from iterate_project.py. -/
def ALLOWED_CODE_EXTENSIONS : List String :=
  [".py", ".js", ".ts", ".tsx", ".jsx", ".json", ".yaml", ".yml",
   ".toml", ".ini", ".cfg", ".html", ".css", ".sql", ".sh", ".txt"]

/-- The set `ALLOWED_CODE_BASENAMES` from iterate_project.py. -/
def ALLOWED_CODE_BASENAMES : List String :=
  ["Dockerfile", "Makefile", ".gitignore", ".dockerignore"]

/-- Model of `iterate_project.is_allowed_code_path`: reject absolute paths,
paths with no segments and paths with a `..` segment; otherwise accept
exactly when the suffix is an allowed extension or the name is an allowed
basename.  (The Python `try` never fires: `PurePosixPath` on a `str`
cannot raise.) -/
def is_allowed_code_path (rel_path : String) : Bool :=
  let parts := posixSegments rel_path
  if posixIsAbsolute rel_path || parts.isEmpty || parts.contains ".." then false
  else if ALLOWED_CODE_EXTENSIONS.contains (posixSuffix rel_path) then true
  else if ALLOWED_CODE_BASENAMES.contains (posixName rel_path) then true
  else false

/-! ### Model of `slugify` (defined identically in both modules)

Python: lowercase, replace every run of characters outside `[a-z0-9]` by one
hyphen (`re.sub("[^a-z0-9]+", "-", ...)` followed by the no-op collapse
`re.sub("-+", "-", ...)`), strip hyphens from both ends, truncate to 60
characters.  Lowercasing is modelled on ASCII (`Char.toLower`). -/

/-- The slug character class `[a-z0-9]`. -/
def isSlugChar (c : Char) : Bool := ('a' ≤ c && c ≤ 'z') || ('0' ≤ c && c ≤ '9')

/-- Every character outside `[a-z0-9]` becomes a hyphen. -/
def hyphenate (cs : List Char) : List Char :=
  cs.map (fun c => if isSlugChar c then c else '-')

/-- Collapse every run of hyphens to a single hyphen.  Composed with
`hyphenate` this realises the substitution of each maximal run of
non-alphanumeric characters by one hyphen. -/
def squeezeHyphens : List Char → List Char
  | [] => []
  | a :: rest =>
    match squeezeHyphens rest with
    | [] => [a]
    | b :: ys => if a == '-' && b == '-' then b :: ys else a :: b :: ys

/-- Remove trailing hyphens (the right half of Python `str.strip("-")`). -/
def dropTrailingHyphens : List Char → List Char
  | [] => []
  | a :: rest =>
    match dropTrailingHyphens rest with
    | [] => if a == '-' then [] else [a]
    | b :: ys => a :: b :: ys

/-- Python `str.strip("-")`: drop hyphens from both ends. -/
def stripHyphens (cs : List Char) : List Char :=
  dropTrailingHyphens (cs.dropWhile (· == '-'))

/-- Model of `slugify` from idea_gen.py / iterate_project.py. -/
def slugify (value : String) : String :=
  let lowered := value.data.map Char.toLower
  let replaced := squeezeHyphens (hyphenate lowered)
  let stripped := stripHyphens replaced
  (stripped.take 60).asString

/-- Whether a list of characters contains two adjacent hyphens. -/
def hasAdjHyphens : List Char → Bool
  | a :: b :: rest => (a == '-' && b == '-') || hasAdjHyphens (b :: rest)
  | _ => false

/-! ### Model of `ensure_unique_slug` (idea_gen.py) -/

/-- The candidate string built by the probe loop: the Python f-string
`f"{base_slug}-{suffix}"` with the decimal rendering of the suffix. -/
def slug_candidate (base_slug : String) (suffix : Nat) : String :=
  base_slug ++ "-" ++ Nat.repr suffix

/-- The `while True` probe loop of `ensure_unique_slug`, with fuel.  The fuel
passed by `ensure_unique_slug` is provably sufficient (the candidates are
pairwise distinct, so a list cannot contain `existing_slugs.length + 1` of
them), hence the fuel-exhausted base case is never reached. -/
def probe_slug (base_slug : String) (existing_slugs : List String) :
    Nat → Nat → String
  | 0, suffix => slug_candidate base_slug suffix
  | fuel + 1, suffix =>
    let candidate := slug_candidate base_slug suffix
    if candidate ∈ existing_slugs then
      probe_slug base_slug existing_slugs fuel (suffix + 1)
    else candidate

/-- Model of `idea_gen.ensure_unique_slug`: return the base slug when unused,
otherwise probe `base-2`, `base-3`, ... until an unused candidate appears. -/
def ensure_unique_slug (base_slug : String) (existing_slugs : List String) : String :=
  if base_slug ∈ existing_slugs then
    probe_slug base_slug existing_slugs (existing_slugs.length + 1) 2
  else base_slug

/-! ### Model of `normalize` and `is_duplicate` (idea_gen.py) -/

/-- Whitespace for Python `str.split()` (modelled on the ASCII whitespace
characters space, tab, newline, carriage return, vertical tab, form feed). -/
def isPyWs (c : Char) : Bool :=
  c == ' ' || c == '\t' || c == '\n' || c == '\r' ||
  c == Char.ofNat 11 || c == Char.ofNat 12

/-- Python `str.split()`: split on whitespace runs, dropping empty pieces. -/
def splitWs (s : String) : List String :=
  ((splitPred isPyWs s.data).map List.asString).filter (fun t => !(t == ""))

/-- Model of `idea_gen.normalize` (named `normalize_text` here because Mathlib
already declares a root-level `normalize`): `" ".join(text.lower().split())`. -/
def normalize_text (text : String) : String :=
  joinSep " " (splitWs (strToLower text))

/-- An idea record as far as `is_duplicate` inspects it: the `idea` field,
absent when the dictionary has no such key (`item.get("idea", "")`). -/
structure IdeaRecord where
  idea : Option String
deriving DecidableEq

/-- Model of `idea_gen.is_duplicate`: build the set of nonempty normalized
idea texts of the store and test membership of the normalized candidate. -/
def is_duplicate (existing_ideas : List IdeaRecord) (candidate : String) : Bool :=
  let normalized_candidate := normalize_text candidate
  let seen := (existing_ideas.map (fun r => normalize_text (r.idea.getD ""))).filter
    (fun t => !(t == ""))
  seen.contains normalized_candidate

/-! ### Model of Python `json.loads` (parse success and parsed shape)

A recursive descent recogniser for the JSON grammar accepted by Python's
`json.loads` with its default arguments: values are objects, arrays,
strings (with the standard escapes; control characters are rejected),
numbers (kept as their lexeme, which no claim inspects), `true`, `false`
and `null`; insignificant whitespace is space, tab, newline and carriage
return.  The fuel argument is a bound on recursion depth; the top-level
entry point supplies more fuel than any input can consume, since every
recursive call follows the consumption of at least one input character
per two fuel units.  (Python's non-standard acceptance of `NaN` and
`Infinity` and its pairing of `\u` surrogates are not modelled; no claim
depends on them.) -/

/-- Parsed JSON values. -/
inductive JVal where
  | null : JVal
  | bool (b : Bool) : JVal
  | num (lexeme : String) : JVal
  | str (s : String) : JVal
  | arr (items : List JVal) : JVal
  | obj (members : List (String × JVal)) : JVal

/-- JSON insignificant whitespace. -/
def isJsonWs (c : Char) : Bool :=
  c == ' ' || c == '\t' || c == '\n' || c == '\r'

/-- Skip insignificant whitespace. -/
def skipJsonWs (cs : List Char) : List Char := cs.dropWhile isJsonWs

/-- Consume an exact literal, returning the remainder on success. -/
def dropLit : List Char → List Char → Option (List Char)
  | [], cs => some cs
  | t :: ts, c :: cs => if c == t then dropLit ts cs else none
  | _ :: _, [] => none

/-- Value of a hexadecimal digit. -/
def hexVal (c : Char) : Option Nat :=
  let n := c.toNat
  if 48 ≤ n && n ≤ 57 then some (n - 48)
  else if 97 ≤ n && n ≤ 102 then some (n - 87)
  else if 65 ≤ n && n ≤ 70 then some (n - 55)
  else none

/-- Decode a single-character JSON escape. -/
def jsonEscape : Char → Option Char
  | '"' => some '"'
  | '\\' => some '\\'
  | '/' => some '/'
  | 'b' => some (Char.ofNat 8)
  | 'f' => some (Char.ofNat 12)
  | 'n' => some '\n'
  | 'r' => some '\r'
  | 't' => some '\t'
  | _ => none

/-- Characters of a JSON string after its opening quote, together with the
input remaining after the closing quote. -/
def jsonStrChars : List Char → Option (List Char × List Char)
  | [] => none
  | c :: cs =>
    if c == '"' then some ([], cs)
    else if c == '\\' then
      match cs with
      | [] => none
      | e :: cs2 =>
        if e == 'u' then
          match cs2 with
          | h1 :: h2 :: h3 :: h4 :: cs3 =>
            match hexVal h1, hexVal h2, hexVal h3, hexVal h4 with
            | some a, some b, some c3, some d =>
              match jsonStrChars cs3 with
              | some (acc, rest) =>
                some (Char.ofNat (((a * 16 + b) * 16 + c3) * 16 + d) :: acc, rest)
              | none => none
            | _, _, _, _ => none
          | _ => none
        else
          match jsonEscape e with
          | some d =>
            match jsonStrChars cs2 with
            | some (acc, rest) => some (d :: acc, rest)
            | none => none
          | none => none
    else if c.toNat < 32 then none
    else
      match jsonStrChars cs with
      | some (acc, rest) => some (c :: acc, rest)
      | none => none

/-- One or more decimal digits, returning them and the remainder. -/
def jsonDigits : List Char → Option (List Char × List Char)
  | cs =>
    let ds := cs.takeWhile Char.isDigit
    if ds.isEmpty then none else some (ds, cs.dropWhile Char.isDigit)

/-- The integer part of a JSON number: `0`, or a digit `1`-`9` followed by
further digits. -/
def jsonIntPart : List Char → Option (List Char × List Char)
  | [] => none
  | c :: cs =>
    if c == '0' then some ([c], cs)
    else if c.isDigit then
      let ds := cs.takeWhile Char.isDigit
      some (c :: ds, cs.dropWhile Char.isDigit)
    else none

/-- The optional fraction part of a JSON number. -/
def jsonFracPart : List Char → Option (List Char × List Char)
  | c :: cs =>
    if c == '.' then
      match jsonDigits cs with
      | some (ds, rest) => some (c :: ds, rest)
      | none => none
    else some ([], c :: cs)
  | [] => some ([], [])

/-- The optional exponent part of a JSON number. -/
def jsonExpPart : List Char → Option (List Char × List Char)
  | c :: cs =>
    if c == 'e' || c == 'E' then
      match cs with
      | s :: cs2 =>
        if s == '+' || s == '-' then
          match jsonDigits cs2 with
          | some (ds, rest) => some (c :: s :: ds, rest)
          | none => none
        else
          match jsonDigits cs with
          | some (ds, rest) => some (c :: ds, rest)
          | none => none
      | [] => none
    else some ([], c :: cs)
  | [] => some ([], [])

/-- A JSON number: optional minus sign, integer part, optional fraction and
exponent; returns the lexeme and the remainder. -/
def jsonNumber (cs : List Char) : Option (List Char × List Char) :=
  let (sign, cs1) :=
    match cs with
    | c :: rest => if c == '-' then ([c], rest) else (([] : List Char), cs)
    | [] => ([], [])
  match jsonIntPart cs1 with
  | none => none
  | some (ip, cs2) =>
    match jsonFracPart cs2 with
    | none => none
    | some (fp, cs3) =>
      match jsonExpPart cs3 with
      | none => none
      | some (ep, cs4) => some (sign ++ ip ++ fp ++ ep, cs4)

mutual

/-- Parse one JSON value. -/
def jsonVal : Nat → List Char → Option (JVal × List Char)
  | 0, _ => none
  | fuel + 1, cs =>
    match cs with
    | [] => none
    | c :: rest =>
      if c == lbrace then
        let cs1 := skipJsonWs rest
        match cs1 with
        | r :: rs =>
          if r == rbrace then some (.obj [], rs)
          else
            match jsonMembers fuel cs1 with
            | some (ms, rest2) => some (.obj ms, rest2)
            | none => none
        | [] => none
      else if c == '[' then
        let cs1 := skipJsonWs rest
        match cs1 with
        | r :: rs =>
          if r == ']' then some (.arr [], rs)
          else
            match jsonItems fuel cs1 with
            | some (vs, rest2) => some (.arr vs, rest2)
            | none => none
        | [] => none
      else if c == '"' then
        match jsonStrChars rest with
        | some (acc, rest2) => some (.str acc.asString, rest2)
        | none => none
      else if c == 't' then
        match dropLit ['r', 'u', 'e'] rest with
        | some rest2 => some (.bool true, rest2)
        | none => none
      else if c == 'f' then
        match dropLit ['a', 'l', 's', 'e'] rest with
        | some rest2 => some (.bool false, rest2)
        | none => none
      else if c == 'n' then
        match dropLit ['u', 'l', 'l'] rest with
        | some rest2 => some (.null, rest2)
        | none => none
      else if c == '-' || c.isDigit then
        match jsonNumber cs with
        | some (lex, rest2) => some (.num lex.asString, rest2)
        | none => none
      else none

/-- Parse the comma-separated items of a nonempty JSON array, including the
closing bracket. -/
def jsonItems : Nat → List Char → Option (List JVal × List Char)
  | 0, _ => none
  | fuel + 1, cs =>
    match jsonVal fuel cs with
    | none => none
    | some (v, cs1) =>
      match skipJsonWs cs1 with
      | ch :: r =>
        if ch == ',' then
          match jsonItems fuel (skipJsonWs r) with
          | some (vs, rest) => some (v :: vs, rest)
          | none => none
        else if ch == ']' then some ([v], r)
        else none
      | [] => none

/-- Parse the comma-separated members of a nonempty JSON object, including
the closing brace. -/
def jsonMembers : Nat → List Char → Option (List (String × JVal) × List Char)
  | 0, _ => none
  | fuel + 1, cs =>
    match cs with
    | c :: rest =>
      if c == '"' then
        match jsonStrChars rest with
        | some (key, cs1) =>
          match skipJsonWs cs1 with
          | d :: cs2 =>
            if d == ':' then
              match jsonVal fuel (skipJsonWs cs2) with
              | some (v, cs3) =>
                match skipJsonWs cs3 with
                | ch :: r =>
                  if ch == ',' then
                    match jsonMembers fuel (skipJsonWs r) with
                    | some (ms, rest2) => some ((key.asString, v) :: ms, rest2)
                    | none => none
                  else if ch == rbrace then some ([(key.asString, v)], r)
                  else none
                | [] => none
              | none => none
            else none
          | [] => none
        | none => none
      else none
    | [] => none

end

/-- Model of `json.loads` as a recogniser: the parsed value when the whole
input is one JSON value surrounded by whitespace, `none` when `json.loads`
would raise `JSONDecodeError`. -/
def jsonParse (s : String) : Option JVal :=
  match jsonVal (2 * s.data.length + 4) (skipJsonWs s.data) with
  | some (v, rest) => if (skipJsonWs rest).isEmpty then some v else none
  | none => none

/-! ### Model of the JSON fallback extraction in `generate_code_changes`
(iterate_project.py lines 138-145) -/

/-- Model of `re.search(r"\x7b[\s\S]*\x7d", raw)`: the greedy match runs from
the first opening brace to the last closing brace, and exists exactly when
some closing brace follows the first opening brace. -/
def extractBraces (s : String) : Option String :=
  let cs := s.data
  let rest := cs.dropWhile (fun c => !(c == lbrace))
  let mid := (rest.reverse.dropWhile (fun c => !(c == rbrace))).reverse
  if mid.isEmpty then none else some mid.asString

/-- Model of the parsing tail of `iterate_project.generate_code_changes`:
try `json.loads(raw)`; on failure search for the brace-delimited substring
and parse that; `none` models the function raising (either the explicit
`RuntimeError` or the uncaught `JSONDecodeError` of the second parse),
which makes the orchestrator skip the project. -/
def parse_model_output (raw : String) : Option JVal :=
  match jsonParse raw with
  | some v => some v
  | none =>
    match extractBraces raw with
    | some sub => jsonParse sub
    | none => none

/-! ### Model of the two `load_ideas` functions

The idea store is modelled as the content of `ideas.json` (when the file
exists) together with the content of the backup file `ideas.bak.json`
(when it exists).  The loaded value is the list of raw JSON items when the
file parses to a JSON array, and the empty list otherwise. -/

/-- The files the idea-store loaders touch. -/
structure IdeaFS where
  ideasFile : Option String
  backupFile : Option String

/-- Model of `idea_gen.load_ideas`: missing file loads as empty; a JSON
array loads as its items; other JSON loads as empty; on a parse failure the
corrupt content is copied to the backup file (the copy is modelled as
succeeding; the source swallows a failure of it) and the load is empty. -/
def load_ideas_gen (fs : IdeaFS) : List JVal × IdeaFS :=
  match fs.ideasFile with
  | none => ([], fs)
  | some content =>
    match jsonParse content with
    | some (JVal.arr xs) => (xs, fs)
    | some _ => ([], fs)
    | none => ([], { fs with backupFile := some content })

/-- Model of `iterate_project.load_ideas`: as `load_ideas_gen`, except that
a parse failure simply loads as empty, with no backup written. -/
def load_ideas_iter (fs : IdeaFS) : List JVal × IdeaFS :=
  match fs.ideasFile with
  | none => ([], fs)
  | some content =>
    match jsonParse content with
    | some (JVal.arr xs) => (xs, fs)
    | some _ => ([], fs)
    | none => ([], fs)

/-! ### Model of `apply_changes` (iterate_project.py lines 148-170)

The project directory is modelled as an association list from canonical
relative path keys to file contents.  `pathlib` resolves `project_dir /
Path(path)` by normalising the relative path, so the canonical key of a
path is its segment list rejoined with the separator.  The `try`/`except`
swallowing of `unlink` failures is modelled by an oracle `unlinkOk` saying
which removals succeed.

This first model is the success-path projection of the loop: writes
(`Path.write_text` after `mkdir(parents=True, exist_ok=True)`) succeed.
The full model, including the error path of the unprotected `mkdir` and
`write_text` calls (which can raise out of `apply_changes`; see the
directory-aware model further below), agrees with this projection on every
run in which no write fails, which is proved with the C2 theorems. -/

/-- The files of a project directory: canonical relative path ↦ content. -/
def ProjFiles := List (String × String)

/-- One applied change, as recorded in the `applied` list: the original path
string from the change-set, and the lower-cased action. -/
structure Applied where
  path : String
  action : String
deriving DecidableEq

/-- One entry of a change-set, as far as `apply_changes` reads it:
`path` and `action` after `str(...)` coercion (absent keys coerce to `""`),
and the raw `content` value, absent when the key is missing. -/
structure ChangeReq where
  path : String
  action : String
  content : Option JVal

/-- Whether a raw JSON value is a Python string (`isinstance(content, str)`). -/
def contentIsStr : Option JVal → Bool
  | some (JVal.str _) => true
  | _ => false

/-- The text of a string content value, with a default. -/
def contentStr : Option JVal → String
  | some (JVal.str s) => s
  | _ => ""

/-- The canonical key of a relative path: its segments rejoined. -/
def canonKey (path : String) : String :=
  joinSep "/" (posixSegments path)

/-- Write a file, replacing any previous content at the same key. -/
def setFile : List (String × String) → String → String → List (String × String)
  | [], key, val => [(key, val)]
  | (k, v) :: rest, key, val =>
    if k == key then (key, val) :: rest else (k, v) :: setFile rest key val

/-- Remove a file. -/
def removeFile (files : List (String × String)) (key : String) :
    List (String × String) :=
  files.filter (fun kv => !(kv.1 == key))

/-- The body of the `for` loop of `apply_changes`, for one change,
projected onto the case in which the write succeeds: the new directory
state plus the applied record, if any.  An entry is skipped when its
action is not create/update/delete or its path fails
`is_allowed_code_path`; a create/update is skipped when its content is not
a string; a delete is skipped when no regular file exists at the target
(`target.exists() and target.is_file()`) or the removal fails (the
exception is swallowed).  The error path of the unprotected `mkdir` and
`write_text` calls is carried by `applyOneExc` below. -/
def applyOne (unlinkOk : String → Bool) (files : List (String × String))
    (c : ChangeReq) : List (String × String) × Option Applied :=
  let path := c.path
  let action := strToLower c.action
  if !(["create", "update", "delete"].contains action) ||
      !(is_allowed_code_path path) then
    (files, none)
  else if action == "create" || action == "update" then
    if contentIsStr c.content then
      (setFile files (canonKey path) (contentStr c.content), some ⟨path, action⟩)
    else (files, none)
  else
    let key := canonKey path
    if (files.lookup key).isSome then
      if unlinkOk key then (removeFile files key, some ⟨path, action⟩)
      else (files, none)
    else (files, none)

/-- Model of `iterate_project.apply_changes`: fold the loop body over the
change list in order, collecting the applied records in order. -/
def apply_changes (unlinkOk : String → Bool) :
    List (String × String) → List ChangeReq → List (String × String) × List Applied
  | files, [] => (files, [])
  | files, c :: cs =>
    let step := applyOne unlinkOk files c
    let rest := apply_changes unlinkOk step.1 cs
    (rest.1, match step.2 with | some a => a :: rest.2 | none => rest.2)

/-! ### Model of the per-project iteration loop of `main`
(iterate_project.py lines 201-223) -/

/-- One entry of the `iterations` history of a state document. -/
structure IterationRecord where
  date : String
  summary : String
  applied : List Applied
deriving DecidableEq

/-- A project state document.  `state.setdefault("iterations", [])` in the
loop body guarantees the `iterations` key, so it is modelled as always
present. -/
structure StateDoc where
  slug : String
  idea : String
  created_date : String
  iterations : List IterationRecord
deriving DecidableEq

/-- What one successful run contributes before application: the run date
(`date.today().isoformat()`), the change-set summary, and its change list. -/
structure RunInput where
  date : String
  summary : String
  changes : List ChangeReq

/-- Lines 216-221 of `main`: append one iteration record to the document. -/
def record_iteration (st : StateDoc) (date summary : String)
    (applied : List Applied) : StateDoc :=
  { st with iterations := st.iterations ++ [⟨date, summary, applied⟩] }

/-- The loop body of `main` for one successful run: apply the change-set to
the project files, then append the iteration record and rewrite the
document. -/
def run_iteration (unlinkOk : String → Bool) (files : List (String × String))
    (st : StateDoc) (r : RunInput) : List (String × String) × StateDoc :=
  let res := apply_changes unlinkOk files r.changes
  (res.1, record_iteration st r.date r.summary res.2)

/-- N successive successful runs of the loop body on one project. -/
def run_iterations (unlinkOk : String → Bool) :
    List (String × String) → StateDoc → List RunInput →
    List (String × String) × StateDoc
  | files, st, [] => (files, st)
  | files, st, r :: rs =>
    let step := run_iteration unlinkOk files st r
    run_iterations unlinkOk step.1 step.2 rs

/-- The iteration records produced by a sequence of runs, independent of any
starting history. -/
def run_records (unlinkOk : String → Bool) :
    List (String × String) → List RunInput → List IterationRecord
  | _, [] => []
  | files, r :: rs =>
    let res := apply_changes unlinkOk files r.changes
    ⟨r.date, r.summary, res.2⟩ :: run_records unlinkOk res.1 rs

/-! ### Model of `ensure_project_initialized` (iterate_project.py lines 74-88)

The projects root is modelled as the list of existing project directory
names plus an association list from slug to the state document stored in
that project's `state.json`.  The written initial document is modelled
structurally (as the dictionary serialised by `json.dumps`). -/

/-- The projects root. -/
structure PFS where
  projDirs : List String
  states : List (String × StateDoc)
deriving DecidableEq

/-- Model of `mkdir(parents=True, exist_ok=True)` on the directory list. -/
def mkdirIdem (dirs : List String) (d : String) : List String :=
  if dirs.contains d then dirs else dirs ++ [d]

/-- Python `created_date or date.today().isoformat()`: the given date unless
it is absent or empty (falsy). -/
def created_or (created : Option String) (today : String) : String :=
  match created with
  | some c => if c == "" then today else c
  | none => today

/-- Model of `iterate_project.ensure_project_initialized` (the name is
shortened here): create the project directory, and if no `state.json`
exists for the slug, write the initial document with empty history. -/
def ensure_project_init (fs : PFS) (slug idea_text : String)
    (created : Option String) (today : String) : PFS :=
  let dirs := mkdirIdem fs.projDirs slug
  match fs.states.lookup slug with
  | some _ => { fs with projDirs := dirs }
  | none =>
    { projDirs := dirs,
      states := fs.states ++ [(slug, ⟨slug, idea_text, created_or created today, []⟩)] }

/-! ### Model of `apply_changes` with its error path
(iterate_project.py lines 148-170)

In the source only the delete branch is wrapped in `try`/`except`.  The
create/update branch calls `target.parent.mkdir(parents=True,
exist_ok=True)` and `target.write_text(...)` unprotected:

  - `mkdir(parents=True, exist_ok=True)` creates every missing component of
    the parent chain and raises (`FileExistsError` or `NotADirectoryError`)
    when a component of that chain exists as a regular file;
  - `write_text` raises `IsADirectoryError` when the target itself is an
    existing directory.

Either exception escapes `apply_changes` (and `main`, whose `try` covers
only the generator call), discarding the applied list while keeping the
disk effects of the earlier entries.  This model carries the directories
explicitly and those two failure modes faithfully.  The directories a
failing `mkdir` may have created before hitting the conflict are not
tracked, since the exception ends the loop and nothing can observe them. -/

/-- A project directory with its directory structure: regular files
(canonical relative path ↦ content) and the list of directories present.
`dirs` is the authoritative list of directories of the model. -/
structure DiskState where
  files : List (String × String)
  dirs : List String
deriving DecidableEq

/-- The canonical keys of the proper ancestors of a relative path, from
shortest to longest: the parent chain that
`target.parent.mkdir(parents=True, exist_ok=True)` ensures. -/
def ancestorKeys (path : String) : List String :=
  let segs := posixSegments path
  (List.range (segs.length - 1)).map (fun i => joinSep "/" (segs.take (i + 1)))

/-- Create each directory in turn, keeping existing entries. -/
def addDirs (dirs : List String) (ks : List String) : List String :=
  ks.foldl mkdirIdem dirs

/-- The outcome of one pass through the loop body: continue with a new disk
state and an optional applied record, or an exception escaping the loop. -/
inductive StepResult where
  | next (disk : DiskState) (rec : Option Applied) : StepResult
  | raised (disk : DiskState) : StepResult
deriving DecidableEq

/-- The outcome of `apply_changes`: the applied list on normal return, or
an exception that escaped (the applied list is discarded, the disk effects
of the entries already processed are kept). -/
inductive ApplyResult where
  | ok (disk : DiskState) (applied : List Applied) : ApplyResult
  | raised (disk : DiskState) : ApplyResult
deriving DecidableEq

/-- The body of the `for` loop of `apply_changes`, for one change, with the
error path: skips are as in `applyOne`; a create/update raises when its
parent chain meets a regular file (the unprotected `mkdir`) or when its
target is an existing directory (the unprotected `write_text`), and
otherwise writes; deletes never raise (their failures are swallowed,
modelled by the `unlinkOk` oracle). -/
def applyOneExc (unlinkOk : String → Bool) (disk : DiskState)
    (c : ChangeReq) : StepResult :=
  let path := c.path
  let action := strToLower c.action
  if !(["create", "update", "delete"].contains action) ||
      !(is_allowed_code_path path) then
    .next disk none
  else if action == "create" || action == "update" then
    if contentIsStr c.content then
      if (ancestorKeys path).all (fun k => (disk.files.lookup k).isNone) then
        let dirs1 := addDirs disk.dirs (ancestorKeys path)
        if dirs1.contains (canonKey path) then .raised ⟨disk.files, dirs1⟩
        else
          .next ⟨setFile disk.files (canonKey path) (contentStr c.content), dirs1⟩
            (some ⟨path, action⟩)
      else .raised disk
    else .next disk none
  else
    let key := canonKey path
    if (disk.files.lookup key).isSome then
      if unlinkOk key then .next ⟨removeFile disk.files key, disk.dirs⟩
        (some ⟨path, action⟩)
      else .next disk none
    else .next disk none

/-- Model of `iterate_project.apply_changes` with its error path: fold the
loop body in order, collecting the applied records; an exception from any
entry propagates, keeping the disk effects made so far and discarding the
applied list. -/
def apply_changes_exc (unlinkOk : String → Bool) :
    DiskState → List ChangeReq → ApplyResult
  | disk, [] => .ok disk []
  | disk, c :: cs =>
    match applyOneExc unlinkOk disk c with
    | .raised d => .raised d
    | .next d rec =>
      match apply_changes_exc unlinkOk d cs with
      | .ok d2 rest =>
        .ok d2 (match rec with | some a => a :: rest | none => rest)
      | .raised d2 => .raised d2

/-! ## Theorems -/

/-! ### General helper lemmas -/

/-- Boolean list membership agrees with propositional membership. -/
theorem list_contains_iff {α : Type} [BEq α] [LawfulBEq α] (l : List α) (x : α) :
    l.contains x = true ↔ x ∈ l := by
  simp [List.contains_eq_any_beq, List.any_eq_true]

/-! ### C1: the path containment filter -/

/-- C1.  `is_allowed_code_path` returns false for every absolute path, every
path with no segments and every path with a `..` segment; on the remaining
(relative, nonempty, traversal-free) paths it returns true exactly when the
final component's extension is in the extension allow-list or its bare
filename is in the basename allow-list. -/
theorem is_allowed_code_path_correct (s : String) :
    is_allowed_code_path s = true ↔
      (posixIsAbsolute s = false ∧ posixSegments s ≠ [] ∧
        ".." ∉ posixSegments s ∧
        (posixSuffix s ∈ ALLOWED_CODE_EXTENSIONS ∨
          posixName s ∈ ALLOWED_CODE_BASENAMES)) := by
  unfold is_allowed_code_path
  by_cases h1 : posixIsAbsolute s = true <;>
    by_cases h2 : (posixSegments s).isEmpty = true <;>
      by_cases h3 : (posixSegments s).contains ".." = true <;>
        simp_all [list_contains_iff, List.isEmpty_iff]

/-! ### C4: shape of slugify output -/

/-- Every character produced by `hyphenate` is in `[a-z0-9]` or a hyphen. -/
theorem hyphenate_mem (cs : List Char) (c : Char) (h : c ∈ hyphenate cs) :
    isSlugChar c = true ∨ c = '-' := by
  unfold hyphenate at h
  rcases List.mem_map.1 h with ⟨x, _, hx⟩
  by_cases hs : isSlugChar x = true
  · left; rw [← hx]; simp [hs]
  · right; rw [← hx]; simp [hs]

/-- The function `squeezeHyphens` only keeps characters of its input. -/
theorem squeezeHyphens_mem (cs : List Char) (c : Char)
    (h : c ∈ squeezeHyphens cs) : c ∈ cs := by
  induction cs with
  | nil => simp [squeezeHyphens] at h
  | cons a rest ih =>
    cases hr : squeezeHyphens rest with
    | nil =>
      simp only [squeezeHyphens, hr] at h
      simp at h; simp [h]
    | cons b ys =>
      simp only [squeezeHyphens, hr] at h
      by_cases hab : (a == '-' && b == '-') = true
      · rw [if_pos hab] at h
        have : c ∈ squeezeHyphens rest := by rw [hr]; exact h
        exact List.mem_cons_of_mem a (ih this)
      · rw [if_neg hab] at h
        rcases List.mem_cons.1 h with h1 | h1
        · simp [h1]
        · have : c ∈ squeezeHyphens rest := by rw [hr]; exact h1
          exact List.mem_cons_of_mem a (ih this)

/-- The function `dropTrailingHyphens` only keeps characters of its input. -/
theorem dropTrailingHyphens_mem (cs : List Char) (c : Char)
    (h : c ∈ dropTrailingHyphens cs) : c ∈ cs := by
  induction cs with
  | nil => simp [dropTrailingHyphens] at h
  | cons a rest ih =>
    cases hr : dropTrailingHyphens rest with
    | nil =>
      simp only [dropTrailingHyphens, hr] at h
      by_cases ha : (a == '-') = true
      · rw [if_pos ha] at h; simp at h
      · rw [if_neg ha] at h; simp at h; simp [h]
    | cons b ys =>
      simp only [dropTrailingHyphens, hr] at h
      rcases List.mem_cons.1 h with h1 | h1
      · simp [h1]
      · have : c ∈ dropTrailingHyphens rest := by rw [hr]; exact h1
        exact List.mem_cons_of_mem a (ih this)

/-- A list without adjacent hyphens has a tail without adjacent hyphens. -/
theorem hasAdjHyphens_tail (a : Char) (xs : List Char)
    (h : hasAdjHyphens (a :: xs) = false) : hasAdjHyphens xs = false := by
  cases xs with
  | nil => rfl
  | cons b rest => simp only [hasAdjHyphens, Bool.or_eq_false_iff] at h; exact h.2

/-- The function `squeezeHyphens` preserves the head of a nonempty list. -/
theorem squeezeHyphens_headq (a : Char) (rest : List Char) :
    (squeezeHyphens (a :: rest)).head? = some a := by
  cases hr : squeezeHyphens rest with
  | nil => simp [squeezeHyphens, hr]
  | cons b ys =>
    simp only [squeezeHyphens, hr]
    by_cases hab : (a == '-' && b == '-') = true
    · rw [if_pos hab]
      simp only [Bool.and_eq_true, beq_iff_eq] at hab
      simp [hab.1, hab.2]
    · rw [if_neg hab]; rfl

/-- The output of `squeezeHyphens` has no adjacent hyphens. -/
theorem squeezeHyphens_noAdj (cs : List Char) :
    hasAdjHyphens (squeezeHyphens cs) = false := by
  induction cs with
  | nil => rfl
  | cons a rest ih =>
    cases hr : squeezeHyphens rest with
    | nil => simp [squeezeHyphens, hr, hasAdjHyphens]
    | cons b ys =>
      simp only [squeezeHyphens, hr]
      by_cases hab : (a == '-' && b == '-') = true
      · rw [if_pos hab]; rw [hr] at ih; exact ih
      · rw [if_neg hab]
        have h2 : hasAdjHyphens (b :: ys) = false := by rw [hr] at ih; exact ih
        simp only [hasAdjHyphens, Bool.or_eq_false_iff]
        exact ⟨by simpa using hab, h2⟩

/-- Dropping a prefix preserves the absence of adjacent hyphens. -/
theorem hasAdjHyphens_dropWhile (p : Char → Bool) (cs : List Char)
    (h : hasAdjHyphens cs = false) :
    hasAdjHyphens (cs.dropWhile p) = false := by
  induction cs with
  | nil => rfl
  | cons a rest ih =>
    by_cases hp : p a = true
    · rw [List.dropWhile_cons_of_pos hp]
      exact ih (hasAdjHyphens_tail a rest h)
    · rw [List.dropWhile_cons_of_neg hp]
      exact h

/-- The function `dropTrailingHyphens` preserves the head of its input. -/
theorem dropTrailingHyphens_headq (xs : List Char) (b : Char) (ys : List Char)
    (h : dropTrailingHyphens xs = b :: ys) : xs.head? = some b := by
  cases xs with
  | nil => simp [dropTrailingHyphens] at h
  | cons a rest =>
    cases hr : dropTrailingHyphens rest with
    | nil =>
      simp only [dropTrailingHyphens, hr] at h
      by_cases ha : (a == '-') = true
      · rw [if_pos ha] at h; cases h
      · rw [if_neg ha] at h
        cases h; rfl
    | cons b2 ys2 =>
      simp only [dropTrailingHyphens, hr] at h
      cases h; rfl

/-- The function `dropTrailingHyphens` preserves the absence of adjacent hyphens. -/
theorem hasAdjHyphens_dropTrailing (cs : List Char)
    (h : hasAdjHyphens cs = false) :
    hasAdjHyphens (dropTrailingHyphens cs) = false := by
  induction cs with
  | nil => rfl
  | cons a rest ih =>
    have htail := ih (hasAdjHyphens_tail a rest h)
    cases hr : dropTrailingHyphens rest with
    | nil =>
      simp only [dropTrailingHyphens, hr]
      by_cases ha : (a == '-') = true
      · rw [if_pos ha]; rfl
      · rw [if_neg ha]; rfl
    | cons b ys =>
      simp only [dropTrailingHyphens, hr]
      have hhead : rest.head? = some b := dropTrailingHyphens_headq rest b ys hr
      have hab : (a == '-' && b == '-') = false := by
        cases rest with
        | nil => simp at hhead
        | cons r rs =>
          have hrb : r = b := by simpa using hhead
          subst hrb
          simp only [hasAdjHyphens, Bool.or_eq_false_iff] at h
          exact h.1
      rw [hr] at htail
      simp only [hasAdjHyphens, Bool.or_eq_false_iff]
      exact ⟨hab, htail⟩

/-- The output of `dropTrailingHyphens` does not end in a hyphen. -/
theorem dropTrailingHyphens_last (cs : List Char) :
    (dropTrailingHyphens cs).getLast? ≠ some '-' := by
  induction cs with
  | nil => simp [dropTrailingHyphens]
  | cons a rest ih =>
    cases hr : dropTrailingHyphens rest with
    | nil =>
      simp only [dropTrailingHyphens, hr]
      by_cases ha : (a == '-') = true
      · rw [if_pos ha]; simp
      · rw [if_neg ha]
        simp only [List.getLast?_singleton]
        intro hcontra
        apply ha
        simp [Option.some.injEq] at hcontra
        simp [hcontra]
    | cons b ys =>
      simp only [dropTrailingHyphens, hr]
      rw [List.getLast?_cons_cons]
      rw [hr] at ih
      exact ih

/-- The head of a `dropWhile (· == '-')` result is not a hyphen. -/
theorem dropWhile_hyphen_head (cs : List Char) (c : Char)
    (h : (cs.dropWhile (· == '-')).head? = some c) : c ≠ '-' := by
  induction cs with
  | nil => simp at h
  | cons a rest ih =>
    by_cases ha : (a == '-') = true
    · rw [List.dropWhile_cons, if_pos ha] at h; exact ih h
    · rw [List.dropWhile_cons, if_neg ha] at h
      simp at h
      intro hc
      rw [h] at ha
      simp [hc] at ha

/-- Taking a prefix preserves the absence of adjacent hyphens. -/
theorem hasAdjHyphens_take (cs : List Char) (h : hasAdjHyphens cs = false) :
    ∀ n, hasAdjHyphens (cs.take n) = false := by
  induction cs with
  | nil => intro n; simp [hasAdjHyphens]
  | cons a rest ih =>
    intro n
    cases n with
    | zero => rfl
    | succ m =>
      rw [List.take_succ_cons]
      cases rest with
      | nil => simp [hasAdjHyphens]
      | cons b rs =>
        cases m with
        | zero => simp [hasAdjHyphens]
        | succ k =>
          rw [List.take_succ_cons]
          simp only [hasAdjHyphens, Bool.or_eq_false_iff] at h ⊢
          constructor
          · exact h.1
          · have := ih h.2 (k + 1)
            rwa [List.take_succ_cons] at this

/-- The data of a slug is the truncated, stripped, squeezed, hyphenated,
lowered data of the input. -/
theorem slugify_data (s : String) :
    (slugify s).data =
      (stripHyphens (squeezeHyphens (hyphenate (s.data.map Char.toLower)))).take 60 := rfl

/-- The function `stripHyphens` only keeps characters of its input. -/
theorem stripHyphens_mem (cs : List Char) (c : Char)
    (h : c ∈ stripHyphens cs) : c ∈ cs := by
  unfold stripHyphens at h
  have h1 := dropTrailingHyphens_mem _ _ h
  exact (List.dropWhile_sublist _).subset h1

/-- Taking 60 elements preserves the head. -/
theorem head_take_sixty (l : List Char) : (l.take 60).head? = l.head? := by
  cases l with
  | nil => rfl
  | cons a as => rfl

/-- The head of a `stripHyphens` result is not a hyphen. -/
theorem stripHyphens_head (cs : List Char) (c : Char)
    (h : (stripHyphens cs).head? = some c) : c ≠ '-' := by
  unfold stripHyphens at h
  cases hr : dropTrailingHyphens (cs.dropWhile (· == '-')) with
  | nil => rw [hr] at h; simp at h
  | cons b ys =>
    rw [hr] at h
    simp at h
    subst h
    exact dropWhile_hyphen_head cs _ (dropTrailingHyphens_headq _ _ _ hr)

/-- C4 (counterexample to the claim as stated).  On the 61-character input
of 59 `a`s, `!`, `b`, the stripped slug has 61 characters, so the final
truncation to 60 cuts after the hyphen that replaced `!`: the returned
identifier ends in a separator, against the no-trailing-separator clause. -/
theorem slugify_trailing_separator_cex :
    (slugify (String.mk (List.replicate 59 'a' ++ ['!', 'b']))).data.getLast? =
        some '-' ∧
      (slugify (String.mk (List.replicate 59 'a' ++ ['!', 'b']))).length = 60 := by
  constructor <;> decide

/-- C4 (amended).  Every `slugify` output consists only of `[a-z0-9]`
characters and hyphens, has no leading separator, no run of two or more
separators, and length at most 60; it has no trailing separator whenever
its length is below 60 (a trailing separator can only be left by the final
truncation to exactly 60 characters); and `slugify` is deterministic. -/
theorem slugify_shape :
    (∀ s : String, ∀ c ∈ (slugify s).data, isSlugChar c = true ∨ c = '-')
    ∧ (∀ s : String, (slugify s).data.head? ≠ some '-')
    ∧ (∀ s : String, hasAdjHyphens (slugify s).data = false)
    ∧ (∀ s : String, (slugify s).length ≤ 60)
    ∧ (∀ s : String, (slugify s).length < 60 →
        (slugify s).data.getLast? ≠ some '-')
    ∧ (∀ a b : String, a = b → slugify a = slugify b) := by
  refine ⟨?_, ?_, ?_, ?_, ?_, ?_⟩
  · intro s c hc
    rw [slugify_data] at hc
    have h1 := List.take_subset 60 _ hc
    have h2 := stripHyphens_mem _ _ h1
    have h3 := squeezeHyphens_mem _ _ h2
    exact hyphenate_mem _ _ h3
  · intro s h
    rw [slugify_data, head_take_sixty] at h
    exact stripHyphens_head _ _ h rfl
  · intro s
    rw [slugify_data]
    apply hasAdjHyphens_take
    apply hasAdjHyphens_dropTrailing
    apply hasAdjHyphens_dropWhile
    exact squeezeHyphens_noAdj _
  · intro s
    show (slugify s).data.length ≤ 60
    rw [slugify_data, List.length_take]
    exact min_le_left _ _
  · intro s hlen h
    have hlen2 : (slugify s).data.length < 60 := hlen
    rw [slugify_data, List.length_take] at hlen2
    have hlt : (stripHyphens (squeezeHyphens (hyphenate (s.data.map Char.toLower)))).length <
        60 := by omega
    rw [slugify_data, List.take_of_length_le (Nat.le_of_lt hlt)] at h
    exact dropTrailingHyphens_last _ h
  · intro a b hab
    rw [hab]

/-- C4 witness: the amended theorem evaluated at concrete inputs. -/
theorem slugify_shape_witness :
    ((slugify "ab!").length < 60 ∧ (slugify "ab!").data.getLast? ≠ some '-')
    ∧ slugify "Ab" = slugify "Ab" :=
  ⟨⟨by decide, slugify_shape.2.2.2.2.1 "ab!" (by decide)⟩,
    slugify_shape.2.2.2.2.2 "Ab" "Ab" rfl⟩

/-! ### C9: duplicate detection -/

/-- C9 (counterexample to the claim as stated).  A record whose idea text
normalizes to the empty string is never entered into the seen set (only
nonempty normalized texts are), so a candidate with equal (empty)
normalized text is not reported as a duplicate. -/
theorem is_duplicate_empty_cex :
    normalize_text " " = normalize_text ""
    ∧ is_duplicate [⟨some " "⟩] "" = false := by
  constructor <;> rfl

/-- C9 (amended).  `is_duplicate` returns true iff the normalized candidate
text is nonempty and equals the normalized idea text of some record of the
store, regardless of the records' dates. -/
theorem is_duplicate_iff (store : List IdeaRecord) (candidate : String) :
    is_duplicate store candidate = true ↔
      (normalize_text candidate ≠ "" ∧
        ∃ r ∈ store, normalize_text (r.idea.getD "") = normalize_text candidate) := by
  simp only [is_duplicate]
  constructor
  · intro h
    rw [list_contains_iff] at h
    rcases List.mem_filter.1 h with ⟨hmem, hne⟩
    rcases List.mem_map.1 hmem with ⟨r, hr, hfr⟩
    have hne2 : normalize_text candidate ≠ "" := by simpa using hne
    exact ⟨hne2, r, hr, hfr⟩
  · rintro ⟨hne, r, hr, hfr⟩
    rw [list_contains_iff]
    apply List.mem_filter.2
    exact ⟨List.mem_map.2 ⟨r, hr, hfr⟩, by simpa using hne⟩

/-! ### C10: idea store loading on corruption -/

/-- C10 (counterexample to the claim as stated).  `"["` is not parseable as
JSON, yet the `load_ideas` of iterate_project.py (one of the two loaders of
the idea store file) returns the empty store without writing any backup:
the final state still has no backup file. -/
theorem load_ideas_iter_no_backup_cex :
    jsonParse "[" = none
    ∧ load_ideas_iter ⟨some "[", none⟩ = ([], ⟨some "[", none⟩) := by
  constructor <;> rfl

/-- C10 (amended).  When the idea store file exists but does not parse as
JSON, the `load_ideas` of idea_gen.py copies the corrupt content to the
sibling backup file and returns an empty store, while the `load_ideas` of
iterate_project.py returns an empty store leaving the files untouched;
neither raises. -/
theorem load_ideas_corruption (fs : IdeaFS) (content : String)
    (hfile : fs.ideasFile = some content) (hbad : jsonParse content = none) :
    load_ideas_gen fs = ([], { fs with backupFile := some content })
    ∧ load_ideas_iter fs = ([], fs) := by
  obtain ⟨i, b⟩ := fs
  simp only [IdeaFS.mk.injEq] at hfile
  subst hfile
  simp [load_ideas_gen, load_ideas_iter, hbad]

/-- C10 witness: the amended theorem evaluated at the corrupt store `"["`. -/
theorem load_ideas_corruption_witness :
    load_ideas_gen ⟨some "[", none⟩ = ([], ⟨some "[", some "["⟩)
    ∧ load_ideas_iter ⟨some "[", none⟩ = ([], ⟨some "[", none⟩) :=
  load_ideas_corruption ⟨some "[", none⟩ "[" rfl rfl

/-! ### C5: uniqueness of probed slugs

The probe loop's termination within its fuel relies on the injectivity of
decimal rendering (`Nat.repr`), proved here through `Nat.digits`. -/

/-- With sufficient fuel, `Nat.toDigitsCore` produces the reversed decimal
digit characters. -/
theorem toDigitsCore_eq_digits :
    ∀ (f n : Nat) (l : List Char), 0 < n → n < f →
      Nat.toDigitsCore 10 f n l =
        ((Nat.digits 10 n).map Nat.digitChar).reverse ++ l := by
  intro f
  induction f with
  | zero => intro n l _ h; omega
  | succ f ih =>
    intro n l hn hf
    rw [Nat.digits_def' (by norm_num : (1:ℕ) < 10) hn]
    simp only [Nat.toDigitsCore]
    by_cases h0 : n / 10 = 0
    · rw [if_pos h0, h0, Nat.digits_zero]
      simp
    · rw [if_neg h0]
      have hlt : n / 10 < f := by
        have := Nat.div_lt_self hn (by norm_num : 1 < 10)
        omega
      rw [ih (n / 10) (Nat.digitChar (n % 10) :: l) (Nat.pos_of_ne_zero h0) hlt]
      simp

/-- The decimal character rendering of a natural number. -/
theorem toDigits_ten (n : Nat) :
    Nat.toDigits 10 n =
      if n = 0 then ['0'] else ((Nat.digits 10 n).map Nat.digitChar).reverse := by
  by_cases h : n = 0
  · subst h; rfl
  · rw [if_neg h]
    unfold Nat.toDigits
    rw [toDigitsCore_eq_digits (n + 1) n [] (Nat.pos_of_ne_zero h) (Nat.lt_succ_self n)]
    simp

/-- The map `Nat.digitChar` is injective below 10. -/
theorem digitChar_inj_lt :
    ∀ a < 10, ∀ b < 10, Nat.digitChar a = Nat.digitChar b → a = b := by decide

/-- Mapping `Nat.digitChar` over digit lists is injective. -/
theorem map_digitChar_inj :
    ∀ (l1 l2 : List Nat), (∀ d ∈ l1, d < 10) → (∀ d ∈ l2, d < 10) →
      l1.map Nat.digitChar = l2.map Nat.digitChar → l1 = l2 := by
  intro l1
  induction l1 with
  | nil =>
    intro l2 _ _ h
    cases l2 with
    | nil => rfl
    | cons b bs => simp at h
  | cons a as ih =>
    intro l2 h1 h2 h
    cases l2 with
    | nil => simp at h
    | cons b bs =>
      simp only [List.map_cons, List.cons.injEq] at h
      have hab : a = b :=
        digitChar_inj_lt a (h1 a (by simp)) b (h2 b (by simp)) h.1
      subst hab
      rw [ih bs (fun d hd => h1 d (List.mem_cons_of_mem _ hd))
        (fun d hd => h2 d (List.mem_cons_of_mem _ hd)) h.2]

/-- The digit characters of a nonzero number are never the single `'0'`. -/
theorem digits_rev_ne_zero_chars (n : Nat) (hn : n ≠ 0) :
    ((Nat.digits 10 n).map Nat.digitChar).reverse ≠ ['0'] := by
  intro h
  have hlen : (Nat.digits 10 n).length = 1 := by
    have := congrArg List.length h
    simpa using this
  rcases List.length_eq_one.1 hlen with ⟨d, hd⟩
  rw [hd] at h
  simp only [List.map_cons, List.map_nil, List.reverse_cons, List.reverse_nil,
    List.nil_append, List.cons.injEq, and_true] at h
  have hdlt : d < 10 := Nat.digits_lt_base (by norm_num) (by rw [hd]; simp)
  have hd0 : d = 0 := digitChar_inj_lt d hdlt 0 (by norm_num) h
  have hofd := Nat.ofDigits_digits 10 n
  rw [hd, hd0] at hofd
  simp [Nat.ofDigits] at hofd
  exact hn hofd.symm

/-- Decimal rendering is injective. -/
theorem natRepr_inj (m n : Nat) (h : Nat.repr m = Nat.repr n) : m = n := by
  unfold Nat.repr at h
  have hd : Nat.toDigits 10 m = Nat.toDigits 10 n := by
    have h2 := congrArg String.data h
    simpa [List.asString] using h2
  rw [toDigits_ten, toDigits_ten] at hd
  by_cases hm : m = 0 <;> by_cases hn : n = 0
  · rw [hm, hn]
  · rw [if_pos hm, if_neg hn] at hd
    exact absurd hd.symm (digits_rev_ne_zero_chars n hn)
  · rw [if_neg hm, if_pos hn] at hd
    exact absurd hd (digits_rev_ne_zero_chars m hm)
  · rw [if_neg hm, if_neg hn] at hd
    have hmaps := List.reverse_injective hd
    have hdig : Nat.digits 10 m = Nat.digits 10 n :=
      map_digitChar_inj _ _
        (fun d hdm => Nat.digits_lt_base (by norm_num) hdm)
        (fun d hdn => Nat.digits_lt_base (by norm_num) hdn) hmaps
    have h1 := Nat.ofDigits_digits 10 m
    rw [hdig, Nat.ofDigits_digits 10 n] at h1
    exact h1.symm

/-- String data of a concatenation. -/
theorem string_data_append (a b : String) : (a ++ b).data = a.data ++ b.data := by
  cases a; cases b; rfl

/-- Strings with equal data are equal. -/
theorem string_ext_data (a b : String) (h : a.data = b.data) : a = b := by
  cases a; cases b; exact congrArg String.mk h

/-- Distinct suffix numbers give distinct probe candidates. -/
theorem slug_candidate_inj (base : String) (j k : Nat)
    (h : slug_candidate base j = slug_candidate base k) : j = k := by
  unfold slug_candidate at h
  have hdata :
      (base.data ++ "-".data) ++ (Nat.repr j).data =
        (base.data ++ "-".data) ++ (Nat.repr k).data := by
    have h2 := congrArg String.data h
    simpa [string_data_append, List.append_assoc] using h2
  have hrepr : (Nat.repr j).data = (Nat.repr k).data :=
    List.append_cancel_left hdata
  exact natRepr_inj j k (string_ext_data _ _ hrepr)

/-- Among any `known.length + 1` consecutive candidates, one is unused. -/
theorem exists_free_candidate (base : String) (known : List String) (start : Nat) :
    ∃ i, i ≤ known.length ∧ slug_candidate base (start + i) ∉ known := by
  by_contra hcon
  push_neg at hcon
  have hinj : Set.InjOn (fun i => slug_candidate base (start + i))
      ↑(Finset.range (known.length + 1)) := by
    intro i _ j _ hij
    have := slug_candidate_inj base (start + i) (start + j) hij
    omega
  have hsub : (Finset.range (known.length + 1)).image
      (fun i => slug_candidate base (start + i)) ⊆ known.toFinset := by
    intro x hx
    rcases Finset.mem_image.1 hx with ⟨i, hi, hxi⟩
    rw [← hxi]
    exact List.mem_toFinset.2
      (hcon i (Nat.lt_succ_iff.1 (Finset.mem_range.1 hi)))
  have hcard := Finset.card_le_card hsub
  rw [Finset.card_image_of_injOn hinj, Finset.card_range] at hcard
  have := List.toFinset_card_le known
  omega

/-- What the probe loop returns: the first unused candidate at or after the
starting suffix, provided one exists within the fuel. -/
theorem probe_slug_spec (base : String) (known : List String) :
    ∀ (fuel start : Nat),
      (∃ i, i < fuel ∧ slug_candidate base (start + i) ∉ known) →
      ∃ i, i < fuel ∧
        probe_slug base known fuel start = slug_candidate base (start + i) ∧
        slug_candidate base (start + i) ∉ known ∧
        ∀ j, j < i → slug_candidate base (start + j) ∈ known := by
  intro fuel
  induction fuel with
  | zero =>
    rintro start ⟨i, hi, _⟩
    omega
  | succ fuel ih =>
    intro start hex
    by_cases hmem : slug_candidate base start ∈ known
    · have hstep : probe_slug base known (fuel + 1) start =
          probe_slug base known fuel (start + 1) := by
        simp [probe_slug, hmem]
      obtain ⟨i, hilt, hnot⟩ := hex
      have hipos : i ≠ 0 := by
        rintro rfl
        simp only [Nat.add_zero] at hnot
        exact hnot hmem
      obtain ⟨i2, rfl⟩ : ∃ i2, i = i2 + 1 := ⟨i - 1, by omega⟩
      have hex2 : ∃ j, j < fuel ∧ slug_candidate base (start + 1 + j) ∉ known := by
        refine ⟨i2, by omega, ?_⟩
        have harith : start + 1 + i2 = start + (i2 + 1) := by omega
        rw [harith]
        exact hnot
      obtain ⟨i3, hi3lt, heq, hnot3, hmin3⟩ := ih (start + 1) hex2
      refine ⟨i3 + 1, by omega, ?_, ?_, ?_⟩
      · rw [hstep, heq]
        congr 1
        omega
      · have harith : start + (i3 + 1) = start + 1 + i3 := by omega
        rw [harith]
        exact hnot3
      · intro j hj
        cases j with
        | zero => simpa using hmem
        | succ j2 =>
          have harith : start + (j2 + 1) = start + 1 + j2 := by omega
          rw [harith]
          exact hmin3 j2 (by omega)
    · refine ⟨0, by omega, ?_, ?_, ?_⟩
      · simp [probe_slug, hmem]
      · simpa using hmem
      · intro j hj
        omega

/-- C5.  `ensure_unique_slug` always returns an identifier outside `known`;
it returns the base itself when the base is unused, and otherwise the
candidate `base-k` for the least `k ≥ 2` whose candidate is unused. -/
theorem ensure_unique_slug_spec (base : String) (known : List String) :
    ensure_unique_slug base known ∉ known
    ∧ (base ∉ known → ensure_unique_slug base known = base)
    ∧ (base ∈ known →
        ∃ k, 2 ≤ k ∧ ensure_unique_slug base known = slug_candidate base k
          ∧ slug_candidate base k ∉ known
          ∧ ∀ j, 2 ≤ j → j < k → slug_candidate base j ∈ known) := by
  by_cases hmem : base ∈ known
  · obtain ⟨i0, hi0, hnot0⟩ := exists_free_candidate base known 2
    have hex : ∃ i, i < known.length + 1 ∧ slug_candidate base (2 + i) ∉ known :=
      ⟨i0, by omega, hnot0⟩
    obtain ⟨i, hilt, heq, hnoti, hmin⟩ :=
      probe_slug_spec base known (known.length + 1) 2 hex
    have hval : ensure_unique_slug base known =
        probe_slug base known (known.length + 1) 2 := by
      simp [ensure_unique_slug, hmem]
    refine ⟨?_, ?_, ?_⟩
    · rw [hval, heq]
      exact hnoti
    · intro h
      exact absurd hmem h
    · intro _
      refine ⟨2 + i, by omega, by rw [hval, heq], hnoti, ?_⟩
      intro j h2j hjk
      have harith : j = 2 + (j - 2) := by omega
      rw [harith]
      exact hmin (j - 2) (by omega)
  · have hval : ensure_unique_slug base known = base := by
      simp [ensure_unique_slug, hmem]
    exact ⟨by rw [hval]; exact hmem, fun _ => hval, fun h => absurd h hmem⟩

/-- C5 witness: the theorem evaluated at concrete inputs. -/
theorem ensure_unique_slug_spec_witness :
    ensure_unique_slug "b" ["a"] = "b"
    ∧ ∃ k, 2 ≤ k ∧ ensure_unique_slug "a" ["a", "a-2"] = slug_candidate "a" k
        ∧ slug_candidate "a" k ∉ ["a", "a-2"]
        ∧ ∀ j, 2 ≤ j → j < k → slug_candidate "a" j ∈ ["a", "a-2"] :=
  ⟨(ensure_unique_slug_spec "b" ["a"]).2.1 (by decide),
    (ensure_unique_slug_spec "a" ["a", "a-2"]).2.2 (by decide)⟩

/-! ### C7: JSON fallback extraction in `generate_code_changes` -/

/-- The head of a `dropWhile` result falsifies the predicate. -/
theorem dropWhile_head_not (p : Char → Bool) (cs : List Char) (c : Char)
    (h : (cs.dropWhile p).head? = some c) : p c = false := by
  induction cs with
  | nil => simp at h
  | cons a rest ih =>
    by_cases hp : p a = true
    · rw [List.dropWhile_cons, if_pos hp] at h
      exact ih h
    · rw [List.dropWhile_cons, if_neg hp] at h
      simp at h
      subst h
      simpa using hp

/-- Splitting a list around the reversed `dropWhile` of its reverse. -/
theorem reverse_dropWhile_decomp (rest : List Char) (p : Char → Bool) :
    rest = (rest.reverse.dropWhile p).reverse ++ (rest.reverse.takeWhile p).reverse := by
  have h1 : rest.reverse.takeWhile p ++ rest.reverse.dropWhile p = rest.reverse :=
    List.takeWhile_append_dropWhile p rest.reverse
  calc rest = rest.reverse.reverse := (List.reverse_reverse rest).symm
    _ = (rest.reverse.takeWhile p ++ rest.reverse.dropWhile p).reverse := by rw [h1]
    _ = (rest.reverse.dropWhile p).reverse ++ (rest.reverse.takeWhile p).reverse := by
        rw [List.reverse_append]

/-- What `extractBraces` extracts: a substring of the input that starts at
the first opening brace (nothing before it is an opening brace), ends at
the last closing brace (nothing after it is a closing brace), and is
delimited by those braces. -/
theorem extractBraces_split (raw sub : String) (h : extractBraces raw = some sub) :
    ∃ pre post : List Char,
      raw.data = pre ++ sub.data ++ post
      ∧ (∀ c ∈ pre, c ≠ lbrace)
      ∧ (∀ c ∈ post, c ≠ rbrace)
      ∧ sub.data.head? = some lbrace
      ∧ sub.data.getLast? = some rbrace := by
  simp only [extractBraces] at h
  split at h
  · cases h
  · rename_i hne
    have hsub : sub.data =
        ((raw.data.dropWhile (fun c => !(c == lbrace))).reverse.dropWhile
          (fun c => !(c == rbrace))).reverse := by
      have h2 : List.asString
          ((raw.data.dropWhile (fun c => !(c == lbrace))).reverse.dropWhile
            (fun c => !(c == rbrace))).reverse = sub := by
        injection h
      rw [← h2]
      rfl
    have hmidne :
        ((raw.data.dropWhile (fun c => !(c == lbrace))).reverse.dropWhile
          (fun c => !(c == rbrace))).reverse ≠ [] := by
      intro hmid
      rw [hmid] at hne
      simp at hne
    refine ⟨raw.data.takeWhile (fun c => !(c == lbrace)),
      ((raw.data.dropWhile (fun c => !(c == lbrace))).reverse.takeWhile
        (fun c => !(c == rbrace))).reverse, ?_, ?_, ?_, ?_, ?_⟩
    · rw [hsub]
      rw [List.append_assoc]
      rw [← reverse_dropWhile_decomp (raw.data.dropWhile (fun c => !(c == lbrace)))]
      exact (List.takeWhile_append_dropWhile _ raw.data).symm
    · intro c hc
      have := List.mem_takeWhile_imp hc
      simpa using this
    · intro c hc
      rw [List.mem_reverse] at hc
      have := List.mem_takeWhile_imp hc
      simpa using this
    · rw [hsub]
      rcases hhead : ((raw.data.dropWhile (fun c => !(c == lbrace))).reverse.dropWhile
          (fun c => !(c == rbrace))).reverse.head? with _ | c
      · rw [List.head?_eq_none_iff] at hhead
        exact absurd hhead hmidne
      · have hrest : (raw.data.dropWhile (fun c => !(c == lbrace))).head? = some c := by
          rw [reverse_dropWhile_decomp (raw.data.dropWhile (fun c => !(c == lbrace)))
            (fun c => !(c == rbrace))]
          rcases hx : ((raw.data.dropWhile (fun c => !(c == lbrace))).reverse.dropWhile
              (fun c => !(c == rbrace))).reverse with _ | ⟨m, ms⟩
          · exact absurd hx hmidne
          · rw [hx] at hhead
            simp at hhead
            subst hhead
            rfl
        have hval := dropWhile_head_not _ _ _ hrest
        have : c = lbrace := by simpa using hval
        rw [this]
    · rw [hsub]
      rw [List.getLast?_eq_head?_reverse, List.reverse_reverse]
      rcases hx : (raw.data.dropWhile (fun c => !(c == lbrace))).reverse.dropWhile
          (fun c => !(c == rbrace)) with _ | ⟨m, ms⟩
      · exfalso
        apply hmidne
        rw [hx]
        rfl
      · have hval := dropWhile_head_not (fun c => !(c == rbrace))
          (raw.data.dropWhile (fun c => !(c == lbrace))).reverse m (by rw [hx]; rfl)
        have hm : m = rbrace := by simpa using hval
        rw [hm]
        rfl

/-- C7 (counterexample to the claim as stated).  On a raw output holding two
JSON objects in prose, the first brace-delimited JSON object substring is
valid JSON, yet the function raises: the greedy pattern extracts from the
first opening brace to the final closing brace, spanning both objects with
the prose between them, which is not valid JSON. -/
theorem generate_changes_greedy_cex :
    jsonParse "a\x7b\"x\":1\x7d b\x7b\"y\":2\x7d" = none
    ∧ jsonParse "\x7b\"x\":1\x7d" = some (JVal.obj [("x", JVal.num "1")])
    ∧ extractBraces "a\x7b\"x\":1\x7d b\x7b\"y\":2\x7d" =
        some "\x7b\"x\":1\x7d b\x7b\"y\":2\x7d"
    ∧ parse_model_output "a\x7b\"x\":1\x7d b\x7b\"y\":2\x7d" = none :=
  ⟨rfl, rfl, rfl, rfl⟩

/-- C7 (amended).  When the raw output parses as JSON it is used directly;
otherwise the function extracts the substring running from the first
opening brace to the last closing brace of the raw output (not the first
JSON object) and parses that; it raises exactly when the direct parse
fails and this substring is absent or itself unparseable. -/
theorem generate_changes_extraction :
    (∀ raw : String, ∀ v : JVal, jsonParse raw = some v →
      parse_model_output raw = some v)
    ∧ (∀ raw : String, jsonParse raw = none → extractBraces raw = none →
        parse_model_output raw = none)
    ∧ (∀ raw sub : String, jsonParse raw = none → extractBraces raw = some sub →
        parse_model_output raw = jsonParse sub)
    ∧ (∀ raw sub : String, extractBraces raw = some sub →
        ∃ pre post : List Char,
          raw.data = pre ++ sub.data ++ post
          ∧ (∀ c ∈ pre, c ≠ lbrace)
          ∧ (∀ c ∈ post, c ≠ rbrace)
          ∧ sub.data.head? = some lbrace
          ∧ sub.data.getLast? = some rbrace) := by
  refine ⟨?_, ?_, ?_, ?_⟩
  · intro raw v h
    simp [parse_model_output, h]
  · intro raw h1 h2
    simp [parse_model_output, h1, h2]
  · intro raw sub h1 h2
    simp [parse_model_output, h1, h2]
  · intro raw sub h
    exact extractBraces_split raw sub h

/-- C7 witness: the amended theorem evaluated at concrete raw outputs. -/
theorem generate_changes_extraction_witness :
    parse_model_output "x" = none
    ∧ parse_model_output "ab \x7b\"k\": true\x7d" = jsonParse "\x7b\"k\": true\x7d" :=
  ⟨generate_changes_extraction.2.1 "x" rfl rfl,
    generate_changes_extraction.2.2.1 "ab \x7b\"k\": true\x7d" "\x7b\"k\": true\x7d"
      rfl rfl⟩

/-! ### C2 and C3: the change-set applier -/

/-- Writing then looking up the same key finds the new content. -/
theorem lookup_setFile (files : List (String × String)) (key val : String) :
    (setFile files key val).lookup key = some val := by
  induction files with
  | nil => simp [setFile, List.lookup]
  | cons kv rest ih =>
    obtain ⟨k, v⟩ := kv
    by_cases hk : k = key
    · subst hk
      simp [setFile, List.lookup]
    · have h1 : (k == key) = false := by simpa using hk
      have h2 : (key == k) = false := by
        simp only [beq_eq_false_iff_ne]
        exact fun hcontra => hk hcontra.symm
      simp [setFile, h1, List.lookup, h2, ih]

/-- Unfolding one step of the applier loop. -/
theorem apply_changes_cons (uok : String → Bool) (files : List (String × String))
    (c : ChangeReq) (cs : List ChangeReq) :
    apply_changes uok files (c :: cs) =
      ((apply_changes uok (applyOne uok files c).1 cs).1,
        match (applyOne uok files c).2 with
        | some a => a :: (apply_changes uok (applyOne uok files c).1 cs).2
        | none => (apply_changes uok (applyOne uok files c).1 cs).2) := rfl

/-- A change whose loop body does nothing leaves the whole run unchanged. -/
theorem apply_changes_skip (uok : String → Bool) (files : List (String × String))
    (c : ChangeReq) (cs : List ChangeReq)
    (h : applyOne uok files c = (files, none)) :
    apply_changes uok files (c :: cs) = apply_changes uok files cs := by
  rw [apply_changes_cons, h]

/-- Entries with an unknown action or a disallowed path are skipped. -/
theorem applyOne_invalid (uok : String → Bool) (files : List (String × String))
    (c : ChangeReq)
    (h : ["create", "update", "delete"].contains (strToLower c.action) = false ∨
      is_allowed_code_path c.path = false) :
    applyOne uok files c = (files, none) := by
  have hguard : (!(["create", "update", "delete"].contains (strToLower c.action)) ||
      !(is_allowed_code_path c.path)) = true := by
    rcases h with h | h <;> rw [h] <;> simp
  simp only [applyOne]
  rw [if_pos hguard]

/-- Creates and updates whose content is not a string are skipped. -/
theorem applyOne_nonstring (uok : String → Bool) (files : List (String × String))
    (c : ChangeReq)
    (hact : strToLower c.action = "create" ∨ strToLower c.action = "update")
    (hcontent : contentIsStr c.content = false) :
    applyOne uok files c = (files, none) := by
  by_cases hpath : is_allowed_code_path c.path = true
  · rcases hact with h | h <;> simp [applyOne, h, hpath, hcontent]
  · have h2 : is_allowed_code_path c.path = false := by simpa using hpath
    exact applyOne_invalid uok files c (Or.inr h2)

/-- Deletes whose target is not an existing regular file are skipped. -/
theorem applyOne_delete_missing (uok : String → Bool)
    (files : List (String × String)) (c : ChangeReq)
    (hact : strToLower c.action = "delete")
    (hlook : files.lookup (canonKey c.path) = none) :
    applyOne uok files c = (files, none) := by
  by_cases hpath : is_allowed_code_path c.path = true
  · simp [applyOne, hact, hpath, hlook]
  · have h2 : is_allowed_code_path c.path = false := by simpa using hpath
    exact applyOne_invalid uok files c (Or.inr h2)

/-- Deletes whose removal fails are skipped silently. -/
theorem applyOne_delete_failed (uok : String → Bool)
    (files : List (String × String)) (c : ChangeReq)
    (hact : strToLower c.action = "delete")
    (hfail : uok (canonKey c.path) = false) :
    applyOne uok files c = (files, none) := by
  by_cases hpath : is_allowed_code_path c.path = true
  · by_cases hlook : files.lookup (canonKey c.path) = none
    · exact applyOne_delete_missing uok files c hact hlook
    · have hsome : (files.lookup (canonKey c.path)).isSome = true := by
        rcases hx : files.lookup (canonKey c.path) with _ | v
        · exact absurd hx hlook
        · rfl
      simp [applyOne, hact, hpath, hsome, hfail]
  · have h2 : is_allowed_code_path c.path = false := by simpa using hpath
    exact applyOne_invalid uok files c (Or.inr h2)

/-- Whenever the loop body records an applied change, the record carries the
entry's original path and its lower-cased action. -/
theorem applyOne_applied_shape (uok : String → Bool)
    (files : List (String × String)) (c : ChangeReq) (a : Applied)
    (h : (applyOne uok files c).2 = some a) :
    a = ⟨c.path, strToLower c.action⟩ := by
  simp only [applyOne] at h
  split at h
  · simp at h
  · split at h
    · split at h
      · simp at h
        exact h.symm
      · simp at h
    · split at h
      · split at h
        · simp at h
          exact h.symm
        · simp at h
      · simp at h

/-- Entries with an unknown action or a disallowed path are skipped by the
loop body with its error path. -/
theorem applyOneExc_invalid (uok : String → Bool) (disk : DiskState)
    (c : ChangeReq)
    (h : ["create", "update", "delete"].contains (strToLower c.action) = false ∨
      is_allowed_code_path c.path = false) :
    applyOneExc uok disk c = .next disk none := by
  have hguard : (!(["create", "update", "delete"].contains (strToLower c.action)) ||
      !(is_allowed_code_path c.path)) = true := by
    rcases h with h | h <;> rw [h] <;> simp
  simp only [applyOneExc]
  rw [if_pos hguard]

/-- Creates and updates whose content is not a string are skipped by the
loop body with its error path. -/
theorem applyOneExc_nonstring (uok : String → Bool) (disk : DiskState)
    (c : ChangeReq)
    (hact : strToLower c.action = "create" ∨ strToLower c.action = "update")
    (hcontent : contentIsStr c.content = false) :
    applyOneExc uok disk c = .next disk none := by
  by_cases hpath : is_allowed_code_path c.path = true
  · rcases hact with h | h <;> simp [applyOneExc, h, hpath, hcontent]
  · have h2 : is_allowed_code_path c.path = false := by simpa using hpath
    exact applyOneExc_invalid uok disk c (Or.inr h2)

/-- Deletes whose target is not an existing regular file are skipped by the
loop body with its error path. -/
theorem applyOneExc_delete_missing (uok : String → Bool) (disk : DiskState)
    (c : ChangeReq)
    (hact : strToLower c.action = "delete")
    (hlook : disk.files.lookup (canonKey c.path) = none) :
    applyOneExc uok disk c = .next disk none := by
  by_cases hpath : is_allowed_code_path c.path = true
  · simp [applyOneExc, hact, hpath, hlook]
  · have h2 : is_allowed_code_path c.path = false := by simpa using hpath
    exact applyOneExc_invalid uok disk c (Or.inr h2)

/-- Deletes whose removal fails are skipped silently by the loop body with
its error path. -/
theorem applyOneExc_delete_failed (uok : String → Bool) (disk : DiskState)
    (c : ChangeReq)
    (hact : strToLower c.action = "delete")
    (hfail : uok (canonKey c.path) = false) :
    applyOneExc uok disk c = .next disk none := by
  by_cases hpath : is_allowed_code_path c.path = true
  · by_cases hlook : disk.files.lookup (canonKey c.path) = none
    · exact applyOneExc_delete_missing uok disk c hact hlook
    · have hsome : (disk.files.lookup (canonKey c.path)).isSome = true := by
        rcases hx : disk.files.lookup (canonKey c.path) with _ | v
        · exact absurd hx hlook
        · rfl
      simp [applyOneExc, hact, hpath, hsome, hfail]
  · have h2 : is_allowed_code_path c.path = false := by simpa using hpath
    exact applyOneExc_invalid uok disk c (Or.inr h2)

/-- Unfolding one step of the applier loop with its error path. -/
theorem apply_changes_exc_cons (uok : String → Bool) (disk : DiskState)
    (c : ChangeReq) (cs : List ChangeReq) :
    apply_changes_exc uok disk (c :: cs) =
      (match applyOneExc uok disk c with
       | .raised d => .raised d
       | .next d rec =>
         match apply_changes_exc uok d cs with
         | .ok d2 rest =>
           .ok d2 (match rec with | some a => a :: rest | none => rest)
         | .raised d2 => .raised d2) := rfl

/-- A change whose loop body does nothing leaves the whole run unchanged. -/
theorem apply_changes_exc_skip (uok : String → Bool) (disk : DiskState)
    (c : ChangeReq) (cs : List ChangeReq)
    (h : applyOneExc uok disk c = .next disk none) :
    apply_changes_exc uok disk (c :: cs) = apply_changes_exc uok disk cs := by
  rw [apply_changes_exc_cons, h]
  rcases hx : apply_changes_exc uok disk cs with ⟨d2, rest⟩ | d2 <;>
    simp only [hx]

/-- Only an allowed create or update with string content can raise: the
exception comes from its unprotected filesystem write, never from a
skipped entry or a delete. -/
theorem applyOneExc_raised_shape (uok : String → Bool) (disk : DiskState)
    (c : ChangeReq) (d : DiskState)
    (h : applyOneExc uok disk c = .raised d) :
    (strToLower c.action = "create" ∨ strToLower c.action = "update")
    ∧ is_allowed_code_path c.path = true ∧ contentIsStr c.content = true := by
  by_cases hg : (!(["create", "update", "delete"].contains (strToLower c.action)) ||
      !(is_allowed_code_path c.path)) = true
  · have hx : applyOneExc uok disk c = .next disk none := by
      simp only [applyOneExc]
      rw [if_pos hg]
    rw [hx] at h
    simp at h
  · have hgf : (!(["create", "update", "delete"].contains (strToLower c.action)) ||
        !(is_allowed_code_path c.path)) = false := by simpa using hg
    have hparts := Bool.or_eq_false_iff.1 hgf
    have hallow : is_allowed_code_path c.path = true := by
      have h2 := hparts.2
      simpa using h2
    by_cases hcu : (strToLower c.action == "create" ||
        strToLower c.action == "update") = true
    · by_cases hstr : contentIsStr c.content = true
      · refine ⟨?_, hallow, hstr⟩
        simpa using hcu
      · have hx : applyOneExc uok disk c = .next disk none := by
          simp only [applyOneExc]
          rw [if_neg hg, if_pos hcu, if_neg hstr]
        rw [hx] at h
        simp at h
    · by_cases hlook : (disk.files.lookup (canonKey c.path)).isSome = true
      · by_cases huok : uok (canonKey c.path) = true
        · have hx : applyOneExc uok disk c =
              .next ⟨removeFile disk.files (canonKey c.path), disk.dirs⟩
                (some ⟨c.path, strToLower c.action⟩) := by
            simp only [applyOneExc]
            rw [if_neg hg, if_neg hcu, if_pos hlook, if_pos huok]
          rw [hx] at h
          simp at h
        · have hx : applyOneExc uok disk c = .next disk none := by
            simp only [applyOneExc]
            rw [if_neg hg, if_neg hcu, if_pos hlook, if_neg huok]
          rw [hx] at h
          simp at h
      · have hx : applyOneExc uok disk c = .next disk none := by
          simp only [applyOneExc]
          rw [if_neg hg, if_neg hcu, if_neg hlook]
        rw [hx] at h
        simp at h

/-- On a continuing step, the error-path loop body agrees with the
success-path projection `applyOne`. -/
theorem applyOneExc_next_agrees (uok : String → Bool) (disk : DiskState)
    (c : ChangeReq) (d : DiskState) (rec : Option Applied)
    (h : applyOneExc uok disk c = .next d rec) :
    applyOne uok disk.files c = (d.files, rec) := by
  by_cases hg : (!(["create", "update", "delete"].contains (strToLower c.action)) ||
      !(is_allowed_code_path c.path)) = true
  · have hx : applyOneExc uok disk c = .next disk none := by
      simp only [applyOneExc]
      rw [if_pos hg]
    rw [hx] at h
    injection h with h1 h2
    have hone : applyOne uok disk.files c = (disk.files, none) := by
      simp only [applyOne]
      rw [if_pos hg]
    rw [hone, h1, h2]
  · by_cases hcu : (strToLower c.action == "create" ||
        strToLower c.action == "update") = true
    · by_cases hstr : contentIsStr c.content = true
      · by_cases hanc : ((ancestorKeys c.path).all
            (fun k => (disk.files.lookup k).isNone)) = true
        · by_cases hdir : ((addDirs disk.dirs (ancestorKeys c.path)).contains
              (canonKey c.path)) = true
          · have hx : applyOneExc uok disk c =
                .raised ⟨disk.files, addDirs disk.dirs (ancestorKeys c.path)⟩ := by
              simp only [applyOneExc]
              rw [if_neg hg, if_pos hcu, if_pos hstr, if_pos hanc, if_pos hdir]
            rw [hx] at h
            simp at h
          · have hx : applyOneExc uok disk c =
                .next ⟨setFile disk.files (canonKey c.path) (contentStr c.content),
                  addDirs disk.dirs (ancestorKeys c.path)⟩
                  (some ⟨c.path, strToLower c.action⟩) := by
              simp only [applyOneExc]
              rw [if_neg hg, if_pos hcu, if_pos hstr, if_pos hanc, if_neg hdir]
            rw [hx] at h
            injection h with h1 h2
            have hone : applyOne uok disk.files c =
                (setFile disk.files (canonKey c.path) (contentStr c.content),
                  some ⟨c.path, strToLower c.action⟩) := by
              simp only [applyOne]
              rw [if_neg hg, if_pos hcu, if_pos hstr]
            rw [hone, ← h1, ← h2]
        · have hx : applyOneExc uok disk c = .raised disk := by
            simp only [applyOneExc]
            rw [if_neg hg, if_pos hcu, if_pos hstr, if_neg hanc]
          rw [hx] at h
          simp at h
      · have hx : applyOneExc uok disk c = .next disk none := by
          simp only [applyOneExc]
          rw [if_neg hg, if_pos hcu, if_neg hstr]
        rw [hx] at h
        injection h with h1 h2
        have hone : applyOne uok disk.files c = (disk.files, none) := by
          simp only [applyOne]
          rw [if_neg hg, if_pos hcu, if_neg hstr]
        rw [hone, h1, h2]
    · by_cases hlook : (disk.files.lookup (canonKey c.path)).isSome = true
      · by_cases huok : uok (canonKey c.path) = true
        · have hx : applyOneExc uok disk c =
              .next ⟨removeFile disk.files (canonKey c.path), disk.dirs⟩
                (some ⟨c.path, strToLower c.action⟩) := by
            simp only [applyOneExc]
            rw [if_neg hg, if_neg hcu, if_pos hlook, if_pos huok]
          rw [hx] at h
          injection h with h1 h2
          have hone : applyOne uok disk.files c =
              (removeFile disk.files (canonKey c.path),
                some ⟨c.path, strToLower c.action⟩) := by
            simp only [applyOne]
            rw [if_neg hg, if_neg hcu, if_pos hlook, if_pos huok]
          rw [hone, ← h1, ← h2]
        · have hx : applyOneExc uok disk c = .next disk none := by
            simp only [applyOneExc]
            rw [if_neg hg, if_neg hcu, if_pos hlook, if_neg huok]
          rw [hx] at h
          injection h with h1 h2
          have hone : applyOne uok disk.files c = (disk.files, none) := by
            simp only [applyOne]
            rw [if_neg hg, if_neg hcu, if_pos hlook, if_neg huok]
          rw [hone, h1, h2]
      · have hx : applyOneExc uok disk c = .next disk none := by
          simp only [applyOneExc]
          rw [if_neg hg, if_neg hcu, if_neg hlook]
        rw [hx] at h
        injection h with h1 h2
        have hone : applyOne uok disk.files c = (disk.files, none) := by
          simp only [applyOne]
          rw [if_neg hg, if_neg hcu, if_neg hlook]
        rw [hone, h1, h2]

/-- When no write fails, the error-path model returns normally and agrees
with the success-path projection, applied list included. -/
theorem apply_changes_exc_ok_agrees (uok : String → Bool) :
    ∀ (cs : List ChangeReq) (disk d : DiskState) (applied : List Applied),
      apply_changes_exc uok disk cs = .ok d applied →
      apply_changes uok disk.files cs = (d.files, applied) := by
  intro cs
  induction cs with
  | nil =>
    intro disk d applied h
    have h2 : ApplyResult.ok disk ([] : List Applied) = ApplyResult.ok d applied := h
    injection h2 with h3 h4
    rw [← h3, ← h4]
    rfl
  | cons c cs ih =>
    intro disk d applied h
    rcases hs : applyOneExc uok disk c with ⟨d1, rec⟩ | d1
    · rcases hr : apply_changes_exc uok d1 cs with ⟨d2, rest⟩ | d2
      · have hagree := applyOneExc_next_agrees uok disk c d1 rec hs
        have hfst : (applyOne uok disk.files c).1 = d1.files := by rw [hagree]
        have hsnd : (applyOne uok disk.files c).2 = rec := by rw [hagree]
        have hih := ih d1 d2 rest hr
        have hstep := apply_changes_cons uok disk.files c cs
        rw [hfst, hsnd, hih] at hstep
        cases rec with
        | none =>
          have hval : apply_changes_exc uok disk (c :: cs) = .ok d2 rest := by
            simp only [apply_changes_exc_cons, hs, hr]
          rw [hval] at h
          injection h with h1 h2
          rw [hstep, ← h1, ← h2]
        | some a =>
          have hval : apply_changes_exc uok disk (c :: cs) = .ok d2 (a :: rest) := by
            simp only [apply_changes_exc_cons, hs, hr]
          rw [hval] at h
          injection h with h1 h2
          rw [hstep, ← h1, ← h2]
      · have hval : apply_changes_exc uok disk (c :: cs) = .raised d2 := by
          simp only [apply_changes_exc_cons, hs, hr]
        rw [hval] at h
        simp at h
    · have hval : apply_changes_exc uok disk (c :: cs) = .raised d1 := by
        simp only [apply_changes_exc_cons, hs]
      rw [hval] at h
      simp at h

/-- C2 (counterexample to the claim as stated).  Two individually valid,
filter-allowed creates suffice to raise: the first writes the regular file
at relative path a.py, and the second entry's unprotected
`mkdir(parents=True, exist_ok=True)` meets that regular file on the parent
chain of a.py/b.py and raises `FileExistsError`, which escapes
`apply_changes`.  So the universal no-exception clause of the claim is
false of the source. -/
theorem apply_changes_raises_cex :
    is_allowed_code_path "a.py" = true
    ∧ is_allowed_code_path "a.py/b.py" = true
    ∧ contentIsStr (some (JVal.str "y")) = true
    ∧ apply_changes_exc (fun _ => true) ⟨[], []⟩
        [⟨"a.py", "create", some (JVal.str "x")⟩,
         ⟨"a.py/b.py", "create", some (JVal.str "y")⟩] =
        .raised ⟨[("a.py", "x")], []⟩ :=
  ⟨rfl, rfl, rfl, rfl⟩

/-- C2 (amended).  The applier raises for no invalid entry: entries with an
unrecognised action or a disallowed path, creates/updates without string
content, deletes of targets that do not exist as regular files, and
deletes whose removal fails are all skipped with no disk effect, no record
and no exception; an exception can escape only from an allowed create or
update with string content, when its unprotected filesystem write fails;
every recorded entry carries the entry's path and lower-cased action; on
every run in which no write fails the applier returns normally and its
applied list is that of the success-path projection (exactly the
successful operations, in change-set order); and the concrete scenario of
one allowed create, one traversal path and one delete of a missing file
applies exactly the create. -/
theorem apply_changes_error_policy :
    (∀ (uok : String → Bool) (disk : DiskState) (c : ChangeReq)
        (cs : List ChangeReq),
      (["create", "update", "delete"].contains (strToLower c.action) = false ∨
        is_allowed_code_path c.path = false) →
      apply_changes_exc uok disk (c :: cs) = apply_changes_exc uok disk cs)
    ∧ (∀ (uok : String → Bool) (disk : DiskState) (c : ChangeReq)
        (cs : List ChangeReq),
      (strToLower c.action = "create" ∨ strToLower c.action = "update") →
      contentIsStr c.content = false →
      apply_changes_exc uok disk (c :: cs) = apply_changes_exc uok disk cs)
    ∧ (∀ (uok : String → Bool) (disk : DiskState) (c : ChangeReq)
        (cs : List ChangeReq),
      strToLower c.action = "delete" →
      disk.files.lookup (canonKey c.path) = none →
      apply_changes_exc uok disk (c :: cs) = apply_changes_exc uok disk cs)
    ∧ (∀ (uok : String → Bool) (disk : DiskState) (c : ChangeReq)
        (cs : List ChangeReq),
      strToLower c.action = "delete" →
      uok (canonKey c.path) = false →
      apply_changes_exc uok disk (c :: cs) = apply_changes_exc uok disk cs)
    ∧ (∀ (uok : String → Bool) (disk : DiskState) (c : ChangeReq) (d : DiskState),
      applyOneExc uok disk c = .raised d →
      (strToLower c.action = "create" ∨ strToLower c.action = "update")
        ∧ is_allowed_code_path c.path = true ∧ contentIsStr c.content = true)
    ∧ (∀ (uok : String → Bool) (disk : DiskState) (c : ChangeReq) (d : DiskState)
        (a : Applied),
      applyOneExc uok disk c = .next d (some a) →
      a = ⟨c.path, strToLower c.action⟩)
    ∧ (∀ (uok : String → Bool) (disk d : DiskState) (cs : List ChangeReq)
        (applied : List Applied),
      apply_changes_exc uok disk cs = .ok d applied →
      apply_changes uok disk.files cs = (d.files, applied))
    ∧ (∀ uok : String → Bool,
      apply_changes_exc uok ⟨[], []⟩
        [⟨"app.py", "create", some (JVal.str "print(1)")⟩,
         ⟨"../secret.py", "create", some (JVal.str "x")⟩,
         ⟨"ghost.py", "delete", none⟩] =
        .ok ⟨[("app.py", "print(1)")], []⟩ [⟨"app.py", "create"⟩]) := by
  refine ⟨?_, ?_, ?_, ?_, ?_, ?_, ?_, ?_⟩
  · intro uok disk c cs h
    exact apply_changes_exc_skip uok disk c cs (applyOneExc_invalid uok disk c h)
  · intro uok disk c cs hact hcontent
    exact apply_changes_exc_skip uok disk c cs
      (applyOneExc_nonstring uok disk c hact hcontent)
  · intro uok disk c cs hact hlook
    exact apply_changes_exc_skip uok disk c cs
      (applyOneExc_delete_missing uok disk c hact hlook)
  · intro uok disk c cs hact hfail
    exact apply_changes_exc_skip uok disk c cs
      (applyOneExc_delete_failed uok disk c hact hfail)
  · intro uok disk c d h
    exact applyOneExc_raised_shape uok disk c d h
  · intro uok disk c d a h
    have h2 := applyOneExc_next_agrees uok disk c d (some a) h
    exact applyOne_applied_shape uok disk.files c a (by rw [h2])
  · intro uok disk d cs applied h
    exact apply_changes_exc_ok_agrees uok cs disk d applied h
  · intro uok
    rfl

/-- C2 witness: every skip rule, the raise condition, the record shape, the
agreement on a successful run, and the scenario evaluated concretely. -/
theorem apply_changes_error_policy_witness :
    (apply_changes_exc (fun _ => true) ⟨[], []⟩
        [⟨"x.md", "create", some (JVal.str "m")⟩] =
      apply_changes_exc (fun _ => true) ⟨[], []⟩ [])
    ∧ (apply_changes_exc (fun _ => true) ⟨[], []⟩ [⟨"x.py", "create", none⟩] =
        apply_changes_exc (fun _ => true) ⟨[], []⟩ [])
    ∧ (apply_changes_exc (fun _ => true) ⟨[], []⟩ [⟨"x.py", "delete", none⟩] =
        apply_changes_exc (fun _ => true) ⟨[], []⟩ [])
    ∧ (apply_changes_exc (fun _ => false) ⟨[("x.py", "c")], []⟩
        [⟨"x.py", "delete", none⟩] =
        apply_changes_exc (fun _ => false) ⟨[("x.py", "c")], []⟩ [])
    ∧ ((strToLower "create" = "create" ∨ strToLower "create" = "update")
        ∧ is_allowed_code_path "a.py/b.py" = true
        ∧ contentIsStr (some (JVal.str "y")) = true)
    ∧ (⟨"y.py", "create"⟩ : Applied) = ⟨"y.py", strToLower "CREATE"⟩
    ∧ apply_changes (fun _ => true) []
        [⟨"app.py", "create", some (JVal.str "print(1)")⟩] =
        ([("app.py", "print(1)")], [⟨"app.py", "create"⟩])
    ∧ apply_changes_exc (fun _ => true) ⟨[], []⟩
        [⟨"app.py", "create", some (JVal.str "print(1)")⟩,
         ⟨"../secret.py", "create", some (JVal.str "x")⟩,
         ⟨"ghost.py", "delete", none⟩] =
        .ok ⟨[("app.py", "print(1)")], []⟩ [⟨"app.py", "create"⟩] :=
  ⟨apply_changes_error_policy.1 (fun _ => true) ⟨[], []⟩
      ⟨"x.md", "create", some (JVal.str "m")⟩ [] (Or.inr rfl),
    apply_changes_error_policy.2.1 (fun _ => true) ⟨[], []⟩
      ⟨"x.py", "create", none⟩ [] (Or.inl rfl) rfl,
    apply_changes_error_policy.2.2.1 (fun _ => true) ⟨[], []⟩
      ⟨"x.py", "delete", none⟩ [] rfl rfl,
    apply_changes_error_policy.2.2.2.1 (fun _ => false) ⟨[("x.py", "c")], []⟩
      ⟨"x.py", "delete", none⟩ [] rfl rfl,
    apply_changes_error_policy.2.2.2.2.1 (fun _ => true) ⟨[("a.py", "x")], []⟩
      ⟨"a.py/b.py", "create", some (JVal.str "y")⟩ ⟨[("a.py", "x")], []⟩ rfl,
    apply_changes_error_policy.2.2.2.2.2.1 (fun _ => true) ⟨[("y.py", "z")], []⟩
      ⟨"y.py", "CREATE", some (JVal.str "w")⟩ ⟨[("y.py", "w")], []⟩
      ⟨"y.py", "create"⟩ rfl,
    apply_changes_error_policy.2.2.2.2.2.2.1 (fun _ => true) ⟨[], []⟩
      ⟨[("app.py", "print(1)")], []⟩
      [⟨"app.py", "create", some (JVal.str "print(1)")⟩]
      [⟨"app.py", "create"⟩] rfl,
    apply_changes_error_policy.2.2.2.2.2.2.2 (fun _ => true)⟩

/-- C3.  `"state.json"` passes the containment filter, so a create or update
aimed at the project's own state document is applied: the state file's
content afterwards is exactly the generator-supplied content, and the entry
is recorded as applied.  The filter does not protect the state file. -/
theorem state_json_unprotected :
    is_allowed_code_path "state.json" = true
    ∧ ∀ (uok : String → Bool) (files : List (String × String)) (content : String),
        apply_changes uok files
            [⟨"state.json", "create", some (JVal.str content)⟩] =
          (setFile files "state.json" content, [⟨"state.json", "create"⟩])
        ∧ (apply_changes uok files
            [⟨"state.json", "create", some (JVal.str content)⟩]).1.lookup
              "state.json" = some content := by
  refine ⟨rfl, ?_⟩
  intro uok files content
  have h : apply_changes uok files
      [⟨"state.json", "create", some (JVal.str content)⟩] =
      (setFile files "state.json" content, [⟨"state.json", "create"⟩]) := rfl
  exact ⟨h, by rw [h]; exact lookup_setFile files "state.json" content⟩

/-! ### C6: the iteration history -/

/-- The state document after a run sequence holds the original history
followed by exactly the records of those runs. -/
theorem run_iterations_eq (uok : String → Bool) :
    ∀ (rs : List RunInput) (files : List (String × String)) (st : StateDoc),
      (run_iterations uok files st rs).2.iterations =
        st.iterations ++ run_records uok files rs := by
  intro rs
  induction rs with
  | nil => intro files st; simp [run_iterations, run_records]
  | cons r rest ih =>
    intro files st
    simp only [run_iterations, run_records]
    rw [ih]
    simp [run_iteration, record_iteration]

/-- A run sequence contributes one record per run. -/
theorem run_records_length (uok : String → Bool) :
    ∀ (rs : List RunInput) (files : List (String × String)),
      (run_records uok files rs).length = rs.length := by
  intro rs
  induction rs with
  | nil => intro files; rfl
  | cons r rest ih => intro files; simp [run_records, ih]

/-- Each contributed record carries the date of the run that produced it. -/
theorem run_records_dates (uok : String → Bool) :
    ∀ (rs : List RunInput) (files : List (String × String)),
      (run_records uok files rs).map IterationRecord.date =
        rs.map RunInput.date := by
  intro rs
  induction rs with
  | nil => intro files; rfl
  | cons r rest ih => intro files; simp [run_records, ih]

/-- C6.  After a sequence of successful runs the document's history is the
prior history followed by one record per run, in run order, each record
carrying its run's date (and, by construction of `run_records`, the applied
list of that run); prior records are never edited or removed, and starting
from a freshly bootstrapped document (empty history) the history length
equals the number of runs. -/
theorem iteration_history_append :
    (∀ (uok : String → Bool) (files : List (String × String)) (st : StateDoc)
        (rs : List RunInput),
      (run_iterations uok files st rs).2.iterations =
        st.iterations ++ run_records uok files rs)
    ∧ (∀ (uok : String → Bool) (files : List (String × String))
        (rs : List RunInput),
      (run_records uok files rs).length = rs.length
      ∧ (run_records uok files rs).map IterationRecord.date =
          rs.map RunInput.date)
    ∧ (∀ (uok : String → Bool) (files : List (String × String)) (st : StateDoc)
        (rs : List RunInput),
      (run_iterations uok files st rs).2.iterations.take st.iterations.length =
        st.iterations)
    ∧ (∀ (uok : String → Bool) (files : List (String × String)) (st : StateDoc)
        (rs : List RunInput), st.iterations = [] →
      (run_iterations uok files st rs).2.iterations.length = rs.length) := by
  refine ⟨?_, ?_, ?_, ?_⟩
  · intro uok files st rs
    exact run_iterations_eq uok rs files st
  · intro uok files rs
    exact ⟨run_records_length uok rs files, run_records_dates uok rs files⟩
  · intro uok files st rs
    rw [run_iterations_eq uok rs files st]
    exact List.take_left st.iterations (run_records uok files rs)
  · intro uok files st rs h
    rw [run_iterations_eq uok rs files st, h]
    simp [run_records_length uok rs files]

/-- C6 witness: one run on a bootstrapped document yields one record. -/
theorem iteration_history_append_witness :
    (run_iterations (fun _ => true) [] ⟨"s", "i", "d", []⟩
      [⟨"2024-01-01", "sum", []⟩]).2.iterations.length = 1 :=
  iteration_history_append.2.2.2 (fun _ => true) [] ⟨"s", "i", "d", []⟩
    [⟨"2024-01-01", "sum", []⟩] rfl

/-! ### C8: idempotence of project bootstrap -/

/-- Appending a fresh key to an association list makes its lookup succeed. -/
theorem lookup_append_single (l : List (String × StateDoc)) (k : String)
    (v : StateDoc) (h : l.lookup k = none) : (l ++ [(k, v)]).lookup k = some v := by
  induction l with
  | nil => simp [List.lookup]
  | cons kv rest ih =>
    obtain ⟨k1, v1⟩ := kv
    by_cases hk : (k == k1) = true
    · simp [List.lookup, hk] at h
    · simp only [List.cons_append, List.lookup, hk]
      simp only [List.lookup, hk] at h
      exact ih h

/-- The directory created by `mkdirIdem` is present afterwards. -/
theorem mkdirIdem_contains (dirs : List String) (d : String) :
    (mkdirIdem dirs d).contains d = true := by
  by_cases h : d ∈ dirs
  · simp [mkdirIdem, list_contains_iff, h]
  · simp [mkdirIdem, list_contains_iff, h]

/-- Creating a directory is a no-op when it already exists. -/
theorem mkdirIdem_noop (l : List String) (d : String) (h : l.contains d = true) :
    mkdirIdem l d = l := by
  have h2 : d ∈ l := (list_contains_iff l d).1 h
  simp [mkdirIdem, list_contains_iff, h2]

/-- C8.  `ensure_project_init` is idempotent; when a state document already
exists for the slug, the stored documents are left unchanged; when none
exists, the project directory is created and the initial document
(slug, idea, created date, empty history) is written. -/
theorem ensure_project_init_props :
    (∀ (fs : PFS) (slug idea_text : String) (created : Option String)
        (today : String),
      ensure_project_init (ensure_project_init fs slug idea_text created today)
        slug idea_text created today =
        ensure_project_init fs slug idea_text created today)
    ∧ (∀ (fs : PFS) (slug idea_text : String) (created : Option String)
        (today : String) (d : StateDoc), fs.states.lookup slug = some d →
      (ensure_project_init fs slug idea_text created today).states = fs.states)
    ∧ (∀ (fs : PFS) (slug idea_text : String) (created : Option String)
        (today : String), fs.states.lookup slug = none →
      (ensure_project_init fs slug idea_text created today).states.lookup slug =
          some ⟨slug, idea_text, created_or created today, []⟩
      ∧ (ensure_project_init fs slug idea_text created today).projDirs.contains
          slug = true) := by
  refine ⟨?_, ?_, ?_⟩
  · intro fs slug idea_text created today
    rcases hx : fs.states.lookup slug with _ | d
    · have h1 : ensure_project_init fs slug idea_text created today =
          ⟨mkdirIdem fs.projDirs slug,
            fs.states ++ [(slug, ⟨slug, idea_text, created_or created today, []⟩)]⟩ := by
        simp [ensure_project_init, hx]
      rw [h1]
      have h2 : (fs.states ++
          [(slug, (⟨slug, idea_text, created_or created today, []⟩ : StateDoc))]).lookup
            slug = some ⟨slug, idea_text, created_or created today, []⟩ :=
        lookup_append_single _ _ _ hx
      simp [ensure_project_init, h2, mkdirIdem_noop _ _ (mkdirIdem_contains _ _)]
    · have h1 : ensure_project_init fs slug idea_text created today =
          { fs with projDirs := mkdirIdem fs.projDirs slug } := by
        simp [ensure_project_init, hx]
      rw [h1]
      have h2 : ({ fs with projDirs := mkdirIdem fs.projDirs slug } : PFS).states.lookup
          slug = some d := hx
      simp [ensure_project_init, h2, mkdirIdem_noop _ _ (mkdirIdem_contains _ _)]
  · intro fs slug idea_text created today d h
    simp [ensure_project_init, h]
  · intro fs slug idea_text created today h
    constructor
    · simp only [ensure_project_init, h]
      exact lookup_append_single _ _ _ h
    · simp only [ensure_project_init, h]
      exact mkdirIdem_contains _ _

/-- C8 witness: the idempotence and creation facts evaluated concretely. -/
theorem ensure_project_init_props_witness :
    ((ensure_project_init ⟨["s"], [("s", ⟨"s", "i", "d", []⟩)]⟩
        "s" "j" none "t").states = [("s", ⟨"s", "i", "d", []⟩)])
    ∧ ((ensure_project_init ⟨[], []⟩ "s" "i" none "t").states.lookup "s" =
        some ⟨"s", "i", created_or none "t", []⟩
      ∧ (ensure_project_init ⟨[], []⟩ "s" "i" none "t").projDirs.contains "s" =
          true) :=
  ⟨ensure_project_init_props.2.1 ⟨["s"], [("s", ⟨"s", "i", "d", []⟩)]⟩
      "s" "j" none "t" ⟨"s", "i", "d", []⟩ rfl,
    ensure_project_init_props.2.2 ⟨[], []⟩ "s" "i" none "t" rfl⟩
